import Mathlib

/-!
Shallow embedding of the LIVINGINK core grid-simulation engine
(`packages/core-rust/src/sim/grid.rs` and `packages/core-rust/src/sim/rng.rs`)
and proofs settling the frozen claims about it.

Modelling conventions:
* `u8`/`u32`/`u64`/`usize` machine integers are `Nat` with explicit `% 2^w`
  where overflow can occur (the target is wasm32, so `usize` is 32 bits).
* The board is a `List Cell`; `Vec` indexing is `List.getD` (all reads that
  the Rust code actually performs are in bounds on well-formed states).
* `GridState.rng` is `ChaCha8Rng`, an external crate dependency; it is
  modelled as an opaque deterministic stream (`Rng`).  No claim settled here
  depends on the concrete values it produces (none of the concrete scenarios
  used below ever draws from it).
* The source iterates two `std::collections::HashSet`s.  The per-call set of
  matched "active" nodes is iterated to seed cluster BFS: its iteration order
  is unspecified, so `findAllMatchesWith` takes the enumeration order as an
  explicit parameter, and `findAllMatches` fixes the ascending-index order.
  The set of cells to clear is modelled as an insertion-ordered duplicate-free
  list; its iteration order only affects the order of emitted events, never
  the final cells, score or checksum.
-/

set_option maxHeartbeats 4000000
set_option maxRecDepth 10000

namespace LivingInk

/-- `2^32`, the modulus of `u32` arithmetic. -/
def U32 : Nat := 4294967296

/-- `2^64`, the modulus of `u64` arithmetic. -/
def U64 : Nat := 18446744073709551616

/-- One board cell: element id byte and flags bitmask byte (`struct Cell`). -/
structure Cell where
  element : Nat
  flags : Nat
deriving DecidableEq, Repr

instance : Inhabited Cell := ⟨⟨0, 0⟩⟩

/-- The all-zero cell `Cell { element: 0, flags: 0 }`. -/
def emptyCell : Cell := ⟨0, 0⟩

/-- `cells[i].element` (reads performed by the source are in bounds). -/
def elemAt (cells : List Cell) (i : Nat) : Nat := (cells.getD i emptyCell).element

/-- `CycleState` (cycle/combo tracker). -/
structure CycleState where
  target : Nat
  chainLength : Nat
  multiplier : Nat
  isAvatarState : Bool
deriving DecidableEq, Repr

/-- `CycleState::new()`: target Water(3), chain 0, multiplier 1, not avatar. -/
def CycleState.new : CycleState := ⟨3, 0, 1, false⟩

/-- `CycleState::reset()` (assignment of the initial values). -/
def CycleState.reset (_s : CycleState) : CycleState := ⟨3, 0, 1, false⟩

/-- The `match self.target` table advancing the elemental cycle:
Water(3) → Wood(2) → Fire(4) → Earth(5) → Metal(1) → Water(3), `_ => 3`. -/
def cycleNextTarget (t : Nat) : Nat :=
  if t = 3 then 2
  else if t = 2 then 4
  else if t = 4 then 5
  else if t = 5 then 1
  else if t = 1 then 3
  else 3

/-- `CycleState::process_match`: returns `(is_success, multiplier_applied)`
together with the updated state.  `u32` fields wrap modulo `2^32`. -/
def CycleState.processMatch (s : CycleState) (element : Nat) :
    (Bool × Nat) × CycleState :=
  if s.isAvatarState then
    let m := (s.multiplier + 1) % U32
    ((true, m * 2 % U32), { s with multiplier := m })
  else if element = s.target then
    let c := (s.chainLength + 1) % U32
    let m := (s.multiplier + 1) % U32
    ((true, m),
     { target := cycleNextTarget s.target, chainLength := c, multiplier := m,
       isAvatarState := decide (5 ≤ c) })
  else
    ((false, 1), s.reset)

/-- Opaque deterministic model of the external `ChaCha8Rng` dependency: a
fixed output stream and a cursor.  Identically seeded generators share the
same stream, which is all the engine relies on. -/
structure Rng where
  stream : Nat → Nat
  pos : Nat

/-- Model of `rng.gen_range(lo..hi)` for `lo < hi`: one uniform draw from the
stream, reduced into the interval. -/
def Rng.genRange (r : Rng) (lo hi : Nat) : Nat × Rng :=
  (lo + r.stream r.pos % (hi - lo), ⟨r.stream, r.pos + 1⟩)

/-- `GridState`: board plus ancillary gameplay state. -/
structure GridState where
  width : Nat
  height : Nat
  cells : List Cell
  events : List Nat
  score : Nat
  matchQueue : List Nat
  isStable : Bool
  autoRefill : Bool
  rng : Rng
  cycle : CycleState

/-- `GridState::new_empty` (the constructor used by deterministic tests);
`seedStream` stands for the ChaCha8 stream derived from the seed. -/
def GridState.newEmpty (width height : Nat) (seedStream : Nat → Nat) : GridState :=
  ⟨width, height, List.replicate (width * height) emptyCell, [], 0, [], true, true,
   ⟨seedStream, 0⟩, CycleState.new⟩

/-- One step of the rolling checksum, folding one byte into `(sum1, sum2)`. -/
def adlerStep (p : Nat × Nat) (b : Nat) : Nat × Nat :=
  ((p.1 + b) % 65521, (p.2 + (p.1 + b) % 65521) % 65521)

/-- `GridState::get_checksum`: Adler-style checksum over element and flag
bytes; the final `(sum2 << 16) | sum1` is `sum2 * 65536 + sum1` because
`sum1 < 65521 < 2^16`. -/
def GridState.getChecksum (g : GridState) : Nat :=
  let p := g.cells.foldl (fun p c => adlerStep (adlerStep p c.element) c.flags) (1, 0)
  p.2 * 65536 + p.1

/-- `Vec::swap(i, j)` on the cell array (both indices in bounds at call sites). -/
def swapCells (cells : List Cell) (i j : Nat) : List Cell :=
  let ci := cells.getD i emptyCell
  let cj := cells.getD j emptyCell
  (cells.set i cj).set j ci

/-- Left extension loop of `check_matches_at` (horizontal): number of
consecutive cells with element `el` immediately left of column `x` in row `y`. -/
def countLeft (cells : List Cell) (w y el : Nat) : Nat → Nat
  | 0 => 0
  | x + 1 => if elemAt cells (y * w + x) = el then countLeft cells w y el x + 1 else 0

/-- Right extension loop of `check_matches_at` (horizontal): counts positions
`j, j+1, …` while `j < w` and the cell has element `el`; `fuel ≥ w - j`
suffices for the bound never to bite (the loop advances `j` each step). -/
def countRight (cells : List Cell) (w y el : Nat) : Nat → Nat → Nat
  | 0, _ => 0
  | fuel + 1, j =>
    if j < w ∧ elemAt cells (y * w + j) = el then countRight cells w y el fuel (j + 1) + 1
    else 0

/-- Up extension loop of `check_matches_at` (vertical). -/
def countUp (cells : List Cell) (w x el : Nat) : Nat → Nat
  | 0 => 0
  | y + 1 => if elemAt cells (y * w + x) = el then countUp cells w x el y + 1 else 0

/-- Down extension loop of `check_matches_at` (vertical). -/
def countDown (cells : List Cell) (w h x el : Nat) : Nat → Nat → Nat
  | 0, _ => 0
  | fuel + 1, j =>
    if j < h ∧ elemAt cells (j * w + x) = el then countDown cells w h x el fuel (j + 1) + 1
    else 0

/-- `GridState::check_matches_at`: run-length check at one point, used by the
swap logic.  Returns false on an empty cell. -/
def GridState.checkMatchesAt (g : GridState) (idx : Nat) : Bool :=
  let x := idx % g.width
  let y := idx / g.width
  let el := elemAt g.cells idx
  if el = 0 then false
  else
    let ch := 1 + countLeft g.cells g.width y el x
               + countRight g.cells g.width y el g.width (x + 1)
    if 3 ≤ ch then true
    else
      let cv := 1 + countUp g.cells g.width x el y
                 + countDown g.cells g.width g.height x el g.height (y + 1)
      decide (3 ≤ cv)

/-- `GridState::try_swap`: validation, speculative swap, point-match check at
both indices, rollback on failure. -/
def GridState.trySwap (g : GridState) (idx1 idx2 : Nat) : Bool × GridState :=
  if g.cells.length ≤ idx1 ∨ g.cells.length ≤ idx2 then (false, g)
  else if idx1 = idx2 then (false, g)
  else if elemAt g.cells idx1 = 10 ∨ elemAt g.cells idx2 = 10 then (false, g)
  else
    let g1 : GridState := { g with cells := swapCells g.cells idx1 idx2 }
    if g1.checkMatchesAt idx1 || g1.checkMatchesAt idx2 then
      (true, { g1 with isStable := false })
    else
      (false, { g1 with cells := swapCells g1.cells idx1 idx2 })

/-- Inner loop of the run scan: smallest `k' ≥ k` with `k' = w` or
`cells[y*w+k'].element ≠ el` (`fuel ≥ w - k` suffices). -/
def runEnd (cells : List Cell) (w y el : Nat) : Nat → Nat → Nat
  | 0, k => k
  | fuel + 1, k =>
    if k < w ∧ elemAt cells (y * w + k) = el then runEnd cells w y el fuel (k + 1) else k

/-- Horizontal run scan of one row (`while x < width - 2` loop of
`find_all_matches`); emits each maximal run of length ≥ 3 as an index list.
`fuel ≥ w - x` suffices since `x` strictly increases each iteration. -/
def scanRow (cells : List Cell) (w y : Nat) : Nat → Nat → List (List Nat)
  | 0, _ => []
  | fuel + 1, x =>
    if x < w - 2 then
      let el := elemAt cells (y * w + x)
      if el = 0 then scanRow cells w y fuel (x + 1)
      else
        let k := runEnd cells w y el w (x + 1)
        if 3 ≤ k - x then
          ((List.range (k - x)).map (fun t => y * w + (x + t))) :: scanRow cells w y fuel k
        else scanRow cells w y fuel k
    else []

/-- All horizontal raw matches, rows scanned top to bottom. -/
def hMatches (w h : Nat) (cells : List Cell) : List (List Nat) :=
  (List.range h).flatMap (fun y => scanRow cells w y w 0)

/-- Inner loop of the vertical run scan: smallest `k' ≥ k` with `k' = h` or
`cells[k'*w+x].element ≠ el` (`fuel ≥ h - k` suffices). -/
def runEndV (cells : List Cell) (w h x el : Nat) : Nat → Nat → Nat
  | 0, k => k
  | fuel + 1, k =>
    if k < h ∧ elemAt cells (k * w + x) = el then runEndV cells w h x el fuel (k + 1) else k

/-- Vertical run scan of one column (`while y < height - 2` loop). -/
def scanCol (cells : List Cell) (w h x : Nat) : Nat → Nat → List (List Nat)
  | 0, _ => []
  | fuel + 1, y =>
    if y < h - 2 then
      let el := elemAt cells (y * w + x)
      if el = 0 then scanCol cells w h x fuel (y + 1)
      else
        let k := runEndV cells w h x el h (y + 1)
        if 3 ≤ k - y then
          ((List.range (k - y)).map (fun t => (y + t) * w + x)) :: scanCol cells w h x fuel k
        else scanCol cells w h x fuel k
    else []

/-- All vertical raw matches, columns scanned left to right. -/
def vMatches (w h : Nat) (cells : List Cell) : List (List Nat) :=
  (List.range w).flatMap (fun x => scanCol cells w h x h 0)

/-- Whether index `i` belongs to any raw run (member of the `active_nodes`
set built from the scratch flag bitmap). -/
def activeB (w h : Nat) (cells : List Cell) (i : Nat) : Bool :=
  (hMatches w h cells ++ vMatches w h cells).any (fun r => r.contains i)

/-- 4-directional neighbour candidates of `i`, in the source's order
(up, down, left, right), with the same bounds guards. -/
def nbrs (w h i : Nat) : List Nat :=
  (if 0 < i / w then [i - w] else []) ++
  (if i / w < h - 1 then [i + w] else []) ++
  (if 0 < i % w then [i - 1] else []) ++
  (if i % w < w - 1 then [i + 1] else [])

/-- One BFS pop: enqueue every unvisited active neighbour with the cluster's
element, in neighbour order; returns the updated `(visited, queue)`. -/
def bfsExpand (w h : Nat) (cells : List Cell) (act : Nat → Bool) (elt curr : Nat)
    (visited : List Bool) (queue : List Nat) : List Bool × List Nat :=
  (nbrs w h curr).foldl
    (fun p n =>
      if act n = true ∧ p.1.getD n false = false ∧ elemAt cells n = elt then
        (p.1.set n true, p.2 ++ [n])
      else p)
    (visited, queue)

/-- The enqueue step of `bfsExpand`, factored out for reasoning. -/
def expandF (cells : List Cell) (act : Nat → Bool) (elt : Nat)
    (p : List Bool × List Nat) (n : Nat) : List Bool × List Nat :=
  if act n = true ∧ p.1.getD n false = false ∧ elemAt cells n = elt then
    (p.1.set n true, p.2 ++ [n])
  else p

/-- The BFS loop of `find_all_matches` gathering one connected cluster.
Structurally recursive on `fuel`; `fuel ≥ 2 * (visited.count false) +
queue.length` guarantees the queue drains before the fuel runs out (see
`bfsLoop_potential` below), so the fuel used at call sites never bites. -/
def bfsLoop (w h : Nat) (cells : List Cell) (act : Nat → Bool) (elt : Nat) :
    Nat → List Nat → List Bool → List Nat → List Nat × List Bool
  | 0, _, visited, acc => (acc, visited)
  | _ + 1, [], visited, acc => (acc, visited)
  | fuel + 1, curr :: rest, visited, acc =>
    let p := bfsExpand w h cells act elt curr visited rest
    bfsLoop w h cells act elt fuel p.2 p.1 (acc ++ [curr])

/-- Cluster shape classification (`Cross` has both orientations, otherwise by
the larger bounding-box span). -/
inductive MatchPattern where
  | line3
  | line4
  | line5
  | cross
  | area
deriving DecidableEq, Repr

/-- `MatchResult`: one matched cluster. -/
structure MatchResult where
  pattern : MatchPattern
  element : Nat
  cells : List Nat
  centerIdx : Nat
deriving DecidableEq, Repr

/-- Bounding box, pattern and centre computation for one finished cluster;
the source updates the minima/maxima and orientation flags as each node is
popped, i.e. over exactly the nodes of `cluster` (whose head is the start). -/
def mkMatchResult (w : Nat) (cells : List Cell) (hasH hasV : Nat → Bool)
    (startIdx : Nat) (cluster : List Nat) : MatchResult :=
  let minX := (cluster.map (· % w)).foldl min (startIdx % w)
  let maxX := (cluster.map (· % w)).foldl max (startIdx % w)
  let minY := (cluster.map (· / w)).foldl min (startIdx / w)
  let maxY := (cluster.map (· / w)).foldl max (startIdx / w)
  let wSpan := maxX - minX + 1
  let hSpan := maxY - minY + 1
  let hh := cluster.any hasH
  let vv := cluster.any hasV
  let pat : MatchPattern :=
    if hh && vv then .cross
    else if 5 ≤ wSpan ∨ 5 ≤ hSpan then .line5
    else if 4 ≤ wSpan ∨ 4 ≤ hSpan then .line4
    else .line3
  ⟨pat, elemAt cells startIdx, cluster, ((minY + maxY) / 2) * w + (minX + maxX) / 2⟩

/-- The outer cluster loop of `find_all_matches`: BFS from each yet-unvisited
start node, in the supplied enumeration order of the active set. -/
def clustersLoop (w h : Nat) (cells : List Cell) (act hasH hasV : Nat → Bool) :
    List Nat → List Bool → List MatchResult → List MatchResult
  | [], _, results => results
  | s :: rest, visited, results =>
    if visited.getD s false then clustersLoop w h cells act hasH hasV rest visited results
    else
      let r := bfsLoop w h cells act (elemAt cells s) (2 * (w * h) + 1)
                 [s] (visited.set s true) []
      clustersLoop w h cells act hasH hasV rest r.2
        (results ++ [mkMatchResult w cells hasH hasV s r.1])

/-- `GridState::find_all_matches`, parametrised by the enumeration order of
the `active_nodes` hash set (`for &start_idx in &active_nodes`), whose
iteration order the standard library leaves unspecified. -/
def findAllMatchesWith (w h : Nat) (cells : List Cell) (starts : List Nat) :
    List MatchResult :=
  let hs := hMatches w h cells
  let vs := vMatches w h cells
  if hs.isEmpty && vs.isEmpty then []
  else
    clustersLoop w h cells
      (fun i => (hs ++ vs).any (fun r => r.contains i))
      (fun i => hs.any (fun r => r.contains i))
      (fun i => vs.any (fun r => r.contains i))
      starts (List.replicate (w * h) false) []

/-- `find_all_matches` with the canonical ascending-index enumeration of the
active set. -/
def findAllMatches (w h : Nat) (cells : List Cell) : List MatchResult :=
  findAllMatchesWith w h cells ((List.range (w * h)).filter (activeB w h cells))

/-- `InteractionType` of the interaction resolver (`None` is `noInter` here
to avoid clashing with `Option.none`). -/
inductive InteractionType where
  | noInter
  | destruction (targets : List Nat)
  | generation (targets : List Nat)
deriving DecidableEq, Repr

/-- Neighbour collection of `analyze_match_interaction`: 4-directional
neighbours of every cluster member that are outside the cluster, non-empty
and not the blocker element 10 (the candidate layout is the same
up/down/left/right pattern as in the BFS, duplicated in the source). -/
def neighborsOf (w h : Nat) (cells : List Cell) (m : MatchResult) : List Nat :=
  m.cells.flatMap (fun c =>
    (nbrs w h c).filter (fun n =>
      !(m.cells.contains n) && (elemAt cells n != 0) && (elemAt cells n != 10)))

/-- Rule 1 affected set: entire row plus entire column through the centre. -/
def crossTargets (w h : Nat) (centerIdx : Nat) : List Nat :=
  (List.range w).map (fun x => centerIdx / w * w + x) ++
  (List.range h).map (fun y => y * w + centerIdx % w)

/-- Rule 2 affected set: entire row through the centre. -/
def rowTargets (w : Nat) (centerIdx : Nat) : List Nat :=
  (List.range w).map (fun x => centerIdx / w * w + x)

/-- Rule 3 affected set: in-bounds part of the 3×3 block around the centre,
scanned `dy` outer, `dx` inner, offsets −1..1 (isize arithmetic in source). -/
def blockTargets (w h : Nat) (centerIdx : Nat) : List Nat :=
  (List.range 3).flatMap (fun dy =>
    (List.range 3).filterMap (fun dx =>
      let nx : Int := (centerIdx % w : Nat) + dx - 1
      let ny : Int := (centerIdx / w : Nat) + dy - 1
      if 0 ≤ nx ∧ nx < (w : Int) ∧ 0 ≤ ny ∧ ny < (h : Int) then
        some (ny.toNat * w + nx.toNat)
      else none))

/-- `GridState::analyze_match_interaction`: the ordered elemental rule table,
first matching rule wins. -/
def analyzeMatch (w h : Nat) (cells : List Cell) (m : MatchResult) : InteractionType :=
  let ns := neighborsOf w h cells m
  if m.element = 1 ∧ ns.any (fun n => elemAt cells n == 2) then
    .destruction (crossTargets w h m.centerIdx)
  else if m.element = 2 ∧ ns.any (fun n => elemAt cells n == 5) then
    .destruction (rowTargets w m.centerIdx)
  else if m.element = 3 ∧ ns.any (fun n => elemAt cells n == 4) then
    .destruction (blockTargets w h m.centerIdx)
  else if m.element = 4 ∧ ns.any (fun n => elemAt cells n == 1) then
    .destruction (ns.filter (fun n => elemAt cells n == 1))
  else if m.element = 5 ∧ ns.any (fun n => elemAt cells n == 3) then
    .destruction (ns.filter (fun n => elemAt cells n == 3))
  else if m.element = 2 ∧ ns.any (fun n => elemAt cells n == 4) then
    .generation m.cells
  else if m.element = 1 ∧ ns.any (fun n => elemAt cells n == 3) then
    .generation (ns.filter (fun n => (elemAt cells n != 3) && decide (elemAt cells n ≤ 5)))
  else if m.element = 3 ∧ ns.any (fun n => elemAt cells n == 2) then
    .generation [m.centerIdx]
  else .noInter

/-- `GridState::push_event`: pack `[type | x | y | intensity]` into one `u32`
(each field truncated to a byte as by the `as u8` casts). -/
def pushEvent (events : List Nat) (t x y inten : Nat) : List Nat :=
  events ++ [t % 256 * 16777216 + x % 256 * 65536 + y % 256 * 256 + inten % 256]

/-- Set-style insert into the cells-to-clear collection (`HashSet::insert`). -/
def clearInsert (l : List Nat) (i : Nat) : List Nat :=
  if l.contains i then l else l ++ [i]

/-- Set-style removal from the cells-to-clear collection (`HashSet::remove`). -/
def clearRemove (l : List Nat) (i : Nat) : List Nat := l.filter (fun j => j != i)

/-- `self.cells[i].element = v` keeping flags. -/
def setElem (cells : List Cell) (i v : Nat) : List Cell :=
  cells.set i ⟨v, (cells.getD i emptyCell).flags⟩

/-- `self.cells[i].flags |= f` keeping the element (flags stay below 256 at
every call site, the source only ors byte constants). -/
def orFlag (cells : List Cell) (i f : Nat) : List Cell :=
  cells.set i ⟨(cells.getD i emptyCell).element, ((cells.getD i emptyCell).flags ||| f) % 256⟩

/-- State threaded through the per-match loop of the match phase of `tick`. -/
structure PhaseState where
  g : GridState
  toClear : List Nat
  bonus : Nat

/-- Body of `for m in matches` inside `tick`: mark the cluster cells for
clearing, resolve and apply the elemental interaction, push the match-queue
entry, run the cycle tracker and emit cycle events. -/
def matchStep (w h : Nat) (s : PhaseState) (m : MatchResult) : PhaseState :=
  let toClear := m.cells.foldl clearInsert s.toClear
  let inter := analyzeMatch w h s.g.cells m
  let s2 : PhaseState :=
    match inter with
    | .destruction ts =>
      let p := ts.foldl
        (fun (p : List Nat × List Nat) t =>
          (clearInsert p.1 t, pushEvent p.2 21 (t % w) (t / w) 200))
        (toClear, s.g.events)
      ⟨{ s.g with events := p.2 }, p.1, s.bonus + 300⟩
    | .generation ts =>
      if m.element = 2 then
        let p := ts.foldl
          (fun (p : List Nat × List Cell × List Nat) t =>
            (clearRemove p.1 t, setElem p.2.1 t 4, pushEvent p.2.2 32 (t % w) (t / w) 200))
          (toClear, s.g.cells, s.g.events)
        ⟨{ s.g with cells := p.2.1, events := p.2.2 }, p.1, s.bonus + 200⟩
      else if m.element = 1 then
        let p := ts.foldl
          (fun (p : List Cell × List Nat) t =>
            (setElem p.1 t 3, pushEvent p.2 31 (t % w) (t / w) 200))
          (s.g.cells, s.g.events)
        ⟨{ s.g with cells := p.1, events := p.2 }, toClear, s.bonus + 200⟩
      else if m.element = 3 then
        let p := ts.foldl
          (fun (p : List Nat × List Cell × List Nat) t =>
            (clearRemove p.1 t, orFlag (setElem p.2.1 t 2) t 1,
             pushEvent p.2.2 33 (t % w) (t / w) 200))
          (toClear, s.g.cells, s.g.events)
        ⟨{ s.g with cells := p.2.1, events := p.2.2 }, p.1, s.bonus + 200⟩
      else ⟨s.g, toClear, s.bonus + 200⟩
    | .noInter => ⟨s.g, toClear, s.bonus⟩
  let g2 := { s2.g with matchQueue := s2.g.matchQueue ++ [m.element] }
  let pm := g2.cycle.processMatch m.element
  let g3 := { g2 with cycle := pm.2, score := (g2.score + 100 * pm.1.2) % U32 }
  let g4 :=
    if pm.1.1 then
      let ev1 := pushEvent g3.events 50 (m.centerIdx % w) (m.centerIdx / w)
                   (pm.2.chainLength % 256)
      { g3 with events :=
          if pm.2.chainLength = 5 then
            pushEvent ev1 55 (m.centerIdx % w) (m.centerIdx / w) 255
          else ev1 }
    else g3
  ⟨g4, s2.toClear, s2.bonus⟩

/-- One step of the final clear pass: zero the cell and emit a pop event if
it is not already empty. -/
def clearStep (w : Nat) (p : List Cell × List Nat) (idx : Nat) : List Cell × List Nat :=
  if elemAt p.1 idx ≠ 0 then
    (p.1.set idx emptyCell, pushEvent p.2 (elemAt p.1 idx) (idx % w) (idx / w) 50)
  else p

/-- The match/interaction/score phase of `tick`, applied to an already
computed match list. -/
def matchPhase (g : GridState) (ms : List MatchResult) : GridState :=
  if ms.isEmpty then { g with isStable := true }
  else
    let s := ms.foldl (matchStep g.width g.height) ⟨g, [], 0⟩
    let g1 := { s.g with score := (s.g.score + s.bonus) % U32 }
    let p := s.toClear.foldl (clearStep g.width) (g1.cells, g1.events)
    { g1 with cells := p.1, events := p.2, isStable := false }

/-- Gravity inner step for one cell of a column, scanning bottom-to-top and
carrying `(cells, write_y, movement)`: Stone resets the fall target just
above itself, movable cells fall to `write_y`. -/
def gravityCell (w x : Nat) (st : List Cell × Nat × Bool) (y : Nat) :
    List Cell × Nat × Bool :=
  let cells := st.1
  let wy := st.2.1
  let mv := st.2.2
  let c := cells.getD (y * w + x) emptyCell
  if c.element = 10 then (cells, (if 0 < y then y - 1 else wy), mv)
  else if c.element ≠ 0 then
    let p :=
      if y ≠ wy then (((cells.set (wy * w + x) c).set (y * w + x) emptyCell), true)
      else (cells, mv)
    (p.1, (if 0 < wy then wy - 1 else wy), p.2)
  else (cells, wy, mv)

/-- Auto-refill of one empty slot: draw from the RNG, mix with the event
count and the index, and place element `seed % 5 + 1`. -/
def refillCell (w x : Nat) (st : GridState × Bool) (y : Nat) : GridState × Bool :=
  let g := st.1
  let idx := y * w + x
  if elemAt g.cells idx = 0 then
    let d := g.rng.genRange 0 100
    let sd := (g.events.length + idx + d.1) % 5
    ({ g with cells := g.cells.set idx ⟨sd + 1, 0⟩, rng := d.2, isStable := false }, true)
  else st

/-- Gravity plus refill for one column (`for x` body of `tick` step 1). -/
def gravityColumn (w h : Nat) (st : GridState × Bool) (x : Nat) : GridState × Bool :=
  let r := ((List.range h).reverse).foldl (gravityCell w x) (st.1.cells, h - 1, st.2)
  let g1 := { st.1 with cells := r.1 }
  if g1.autoRefill then (List.range (r.2.1 + 1)).foldl (refillCell w x) (g1, r.2.2)
  else (g1, r.2.2)

/-- `GridState::tick`, parametrised by the enumeration order of the active
set used by `find_all_matches` (see `findAllMatchesWith`). -/
def GridState.tickWith (g : GridState) (starts : List Nat) : GridState :=
  let p := (List.range g.width).foldl (gravityColumn g.width g.height) (g, false)
  let g1 := p.1
  if p.2 then { g1 with isStable := false }
  else matchPhase g1 (findAllMatchesWith g1.width g1.height g1.cells starts)

/-- `GridState::tick` with the canonical ascending-index enumeration. -/
def GridState.tick (g : GridState) : GridState :=
  let p := (List.range g.width).foldl (gravityColumn g.width g.height) (g, false)
  let g1 := p.1
  if p.2 then { g1 with isStable := false }
  else matchPhase g1 (findAllMatches g1.width g1.height g1.cells)

/-- `GridState::preview_swap`: speculative swap, full match + interaction
analysis on the hypothetical board, flat `(index, effect-kind)` result list,
unconditional revert. -/
def GridState.previewSwap (g : GridState) (idx1 idx2 : Nat) : List Nat × GridState :=
  if g.cells.length ≤ idx1 ∨ g.cells.length ≤ idx2 then ([], g)
  else if elemAt g.cells idx1 = 10 ∨ elemAt g.cells idx2 = 10 then ([], g)
  else
    let g1 : GridState := { g with cells := swapCells g.cells idx1 idx2 }
    let ms := findAllMatches g1.width g1.height g1.cells
    let result := ms.flatMap (fun m =>
      match analyzeMatch g1.width g1.height g1.cells m with
      | .destruction ts => ts.flatMap (fun i => [i, 1])
      | .generation ts => ts.flatMap (fun i => [i, 2])
      | .noInter => m.cells.flatMap (fun i => [i, 0]))
    (result, { g1 with cells := swapCells g1.cells idx1 idx2 })

/-- `GridState::preview_neighbors`: concatenation of `preview_swap` against
each in-bounds 4-neighbour of `(x, y)`. -/
def GridState.previewNeighbors (g : GridState) (x y : Nat) : List Nat × GridState :=
  let idx := y * g.width + x
  if g.cells.length ≤ idx then ([], g)
  else
    let cand :=
      (if 0 < y then [(x, y - 1)] else []) ++
      (if y < g.height - 1 then [(x, y + 1)] else []) ++
      (if 0 < x then [(x - 1, y)] else []) ++
      (if x < g.width - 1 then [(x + 1, y)] else [])
    cand.foldl
      (fun (p : List Nat × GridState) n =>
        let r := p.2.previewSwap idx (n.2 * p.2.width + n.1)
        (p.1 ++ r.1, r.2))
      ([], g)

/-- `Pcg32` from `sim/rng.rs` (64-bit state, 32-bit output). -/
structure Pcg32 where
  state : Nat
  inc : Nat
deriving DecidableEq, Repr

/-- The PCG multiplier constant. -/
def pcgMulC : Nat := 6364136223846793005

/-- `u32::rotate_right` for a rotation amount `r < 32` (the source's `rot`
is a 5-bit value). -/
def rotr32 (x r : Nat) : Nat := (x >>> r ||| x <<< (32 - r)) % U32

/-- `Pcg32::next_u32`: LCG state advance plus XSH-RR output permutation of
the old state. -/
def Pcg32.nextU32 (s : Pcg32) : Nat × Pcg32 :=
  let old := s.state
  let xorshifted := (((old >>> 18) ^^^ old) >>> 27) % U32
  let rot := old >>> 59
  (rotr32 xorshifted rot, ⟨(old * pcgMulC + s.inc) % U64, s.inc⟩)

/-- The rejection threshold `0u32.wrapping_sub(range) % range` computed by
`Pcg32::gen_range`, i.e. `(2^32 - range) mod range` for `1 ≤ range < 2^32`. -/
def pcgThreshold (range : Nat) : Nat := (U32 - range % U32) % U32 % range

/-- The rejection-sampling `loop` of `Pcg32::gen_range`: draw 32-bit values
until one reaches the threshold (`none` only if `fuel` runs out). -/
def pcgGenLoop (threshold range mn : Nat) : Nat → Pcg32 → Option (Nat × Pcg32)
  | 0, _ => none
  | fuel + 1, s =>
    let r := s.nextU32
    if threshold ≤ r.1 then some (mn + r.1 % range, r.2)
    else pcgGenLoop threshold range mn fuel r.2

/-- `Pcg32::gen_range(lo..hi)`: casts the bounds to `u32` (the identity on
wasm32, where `usize` is 32 bits), returns `min` for an empty range, and
otherwise rejection-samples. -/
def Pcg32.genRange (s : Pcg32) (fuel lo hi : Nat) : Option (Nat × Pcg32) :=
  let mn := lo % U32
  let mx := hi % U32
  if mx ≤ mn then some (mn, s)
  else pcgGenLoop (pcgThreshold (mx - mn)) (mx - mn) mn fuel s

instance : Inhabited MatchResult := ⟨⟨.line3, 0, [], 0⟩⟩

/-- Cells all carrying the given elements, with zero flags. -/
def mkCells (l : List Nat) : List Cell := l.map (fun e => ⟨e, 0⟩)

/-- A concrete test state over the given element layout, as the test helper
`create_test_grid` builds it (`auto_refill = false`, fresh ancillary state);
the RNG stream is irrelevant (never drawn from in the scenarios below). -/
def mkGrid (w h : Nat) (l : List Nat) : GridState :=
  ⟨w, h, mkCells l, [], 0, [], true, false, ⟨fun _ => 0, 0⟩, CycleState.new⟩

/-- A full 5×5 board whose only matches are a Water run at indices 0–2 and a
Wood run at indices 20–22, with no elemental interaction for either. -/
def demoC1 : GridState := mkGrid 5 5
  [3, 3, 3, 5, 1,
   5, 1, 5, 1, 5,
   1, 5, 1, 5, 1,
   1, 3, 1, 1, 5,
   2, 2, 2, 1, 1]

/-- The ascending-index enumeration of `demoC1`'s active match nodes. -/
def ascC1 : List Nat := (List.range 25).filter (activeB 5 5 demoC1.cells)

/-- A full 5×5 board whose only match is a horizontal Metal run at indices
11–13, with a Wood cell at index 7 directly above the match centre 12. -/
def demoC5 : GridState := mkGrid 5 5
  [5, 4, 5, 4, 5,
   4, 5, 2, 5, 4,
   3, 1, 1, 1, 3,
   4, 5, 4, 5, 4,
   5, 4, 5, 4, 5]

/-- A full 5×5 board whose only match is a horizontal Water run at indices
0–2, with a Wood neighbour at index 3 and no Fire neighbour. -/
def demoC7 : GridState := mkGrid 5 5
  [3, 3, 3, 2, 5,
   1, 5, 1, 5, 1,
   5, 1, 5, 1, 5,
   1, 5, 1, 5, 1,
   5, 1, 5, 1, 5]

/-- A 3×3 board with a row of three blocker (Stone, 10) cells. -/
def stones3 : GridState := mkGrid 3 3 [10, 10, 10, 2, 3, 2, 3, 2, 3]

/-- A 3×3 board with a single Metal run in row 0. -/
def line3x3 : GridState := mkGrid 3 3 [1, 1, 1, 2, 3, 2, 3, 2, 3]

/-- A 3×3 board where swapping the opposite corners 0 and 8 completes a
Metal run in row 0. -/
def corners3 : GridState := mkGrid 3 3 [5, 1, 1, 2, 3, 2, 3, 2, 1]

/-- A 3×3 board of empty cells only. -/
def empty3 : GridState := mkGrid 3 3 [0, 0, 0, 0, 0, 0, 0, 0, 0]

/-- The spec-level notion used by C2/C10: index `idx` lies in a horizontal
run of at least 3 cells all holding the same element value as `idx`'s cell. -/
def hRun3At (cells : List Cell) (w : Nat) (idx : Nat) : Prop :=
  ∃ a < w, ∃ b < w, a ≤ idx % w ∧ idx % w ≤ b ∧ 3 ≤ b + 1 - a ∧
    ∀ t < b + 1, a ≤ t → elemAt cells (idx / w * w + t) = elemAt cells idx

/-- Vertical counterpart of `hRun3At`. -/
def vRun3At (cells : List Cell) (w h : Nat) (idx : Nat) : Prop :=
  ∃ a < h, ∃ b < h, a ≤ idx / w ∧ idx / w ≤ b ∧ 3 ≤ b + 1 - a ∧
    ∀ t < b + 1, a ≤ t → elemAt cells (t * w + idx % w) = elemAt cells idx

/-- Index `idx` lies in a run of at least 3 identical elements (spec wording;
note that this does not require the shared element value to be non-empty). -/
def run3At (cells : List Cell) (w h : Nat) (idx : Nat) : Prop :=
  hRun3At cells w idx ∨ vRun3At cells w h idx

instance (cells : List Cell) (w idx : Nat) : Decidable (hRun3At cells w idx) := by
  unfold hRun3At
  infer_instance

instance (cells : List Cell) (w h idx : Nat) : Decidable (vRun3At cells w h idx) := by
  unfold vRun3At
  infer_instance

instance (cells : List Cell) (w h idx : Nat) : Decidable (run3At cells w h idx) := by
  unfold run3At
  infer_instance

/-- 4-directional board adjacency (via the source's neighbour offsets). -/
def adj4 (w h i j : Nat) : Prop := j ∈ nbrs w h i

/-- A cell-index list is connected under 4-directional adjacency: any two
members are joined by a path staying inside the list. -/
def AdjConnected (w h : Nat) (s : List Nat) : Prop :=
  ∀ a ∈ s, ∀ b ∈ s,
    Relation.ReflTransGen (fun i j => i ∈ s ∧ j ∈ s ∧ adj4 w h i j) a b

/-- Whether BFS bookkeeping vector `v` marks index `i` (a read of
`visited[i]`; out-of-range reads do not occur on well-formed states). -/
def visB (v : List Bool) (i : Nat) : Bool := v.getD i false

/-- One same-element step between active nodes, the edge relation the BFS of
`find_all_matches` explores. -/
def adjActive (w h : Nat) (cells : List Cell) (act : Nat → Bool) (elt i j : Nat) : Prop :=
  j ∈ nbrs w h i ∧ act i = true ∧ act j = true ∧
    elemAt cells i = elt ∧ elemAt cells j = elt

/-- The visited set is closed under same-element active adjacency — the
invariant the outer cluster loop maintains across BFS runs. -/
def closedVis (w h : Nat) (cells : List Cell) (visited : List Bool) : Prop :=
  ∀ v, visB visited v = true → activeB w h cells v = true ∧
    ∀ u ∈ nbrs w h v, activeB w h cells u = true →
      elemAt cells u = elemAt cells v → visB visited u = true

/-- The properties claim C8 asserts of one reported match (with the blocker
exclusion dropped — see the counterexample): at least 3 distinct cells, a
non-empty shared element, and 4-directional connectivity. -/
def clusterOk (w h : Nat) (cells : List Cell) (m : MatchResult) : Prop :=
  3 ≤ m.cells.length ∧ m.cells.Nodup ∧ m.element ≠ 0 ∧
    (∀ i ∈ m.cells, i < w * h ∧ elemAt cells i = m.element) ∧
    AdjConnected w h m.cells

/-- Initial state of the per-match loop of the match phase. -/
def initPhase (g : GridState) : PhaseState := ⟨g, [], 0⟩

/-- State of the per-match loop after the first `k` matches of `ms`. -/
def phaseAt (g : GridState) (ms : List MatchResult) (k : Nat) : PhaseState :=
  (ms.take k).foldl (matchStep g.width g.height) (initPhase g)

/-- The interaction the resolver computes for the `k`-th match, against the
board as it stands when that match is processed. -/
def interAt (g : GridState) (ms : List MatchResult) (k : Nat) : InteractionType :=
  analyzeMatch g.width g.height (phaseAt g ms k).g.cells (ms.getD k default)

/-- The indices a Destruction result inserts into the clear set (empty for
the other interaction kinds). -/
def destrTargetsOf : InteractionType → List Nat
  | .destruction ts => ts
  | _ => []

/-- All indices the `k`-th match inserts into the clear set: its own cluster
cells plus, for a Destruction result, the affected targets (Generation
results insert nothing). -/
def insertedAt (g : GridState) (ms : List MatchResult) (k : Nat) : List Nat :=
  (ms.getD k default).cells ++ destrTargetsOf (interAt g ms k)

/-- Feeding a sequence of matched elements through the cycle tracker. -/
def cycleFeed (s : CycleState) (l : List Nat) : CycleState :=
  l.foldl (fun s e => (s.processMatch e).2) s

/-! ## Basic list helpers -/

theorem getD_lt {l : List Cell} {i : Nat} {d : Cell} (h : i < l.length) :
    l.getD i d = l[i] := by
  simp [List.getD_eq_getElem?_getD, List.getElem?_eq_getElem h]

theorem getD_ge {l : List Cell} {i : Nat} {d : Cell} (h : l.length ≤ i) :
    l.getD i d = d := by
  simp [List.getD_eq_getElem?_getD, List.getElem?_eq_none h]

theorem swapCells_length (cells : List Cell) (i j : Nat) :
    (swapCells cells i j).length = cells.length := by
  simp [swapCells]

theorem swapCells_roundtrip (cells : List Cell) (i j : Nat)
    (hi : i < cells.length) (hj : j < cells.length) :
    swapCells (swapCells cells i j) i j = cells := by
  apply List.ext_getElem (by simp [swapCells])
  intro n h1 h2
  simp only [swapCells, List.getD_eq_getElem?_getD, List.getElem?_set,
    List.getElem_set, List.length_set, List.getElem?_eq_getElem, hi, hj,
    Option.getD_some, if_pos]
  split_ifs <;> simp_all

/-! ## Claim C3: preview operations never mutate the state -/

theorem previewSwap_state (g : GridState) (i j : Nat) :
    (g.previewSwap i j).2 = g := by
  unfold GridState.previewSwap
  split_ifs with h1 h2
  · rfl
  · rfl
  · have hi : i < g.cells.length := by omega
    have hj : j < g.cells.length := by omega
    show ({ g with cells := swapCells (swapCells g.cells i j) i j } : GridState) = g
    rw [swapCells_roundtrip g.cells i j hi hj]

theorem previewNeighbors_state (g : GridState) (x y : Nat) :
    (g.previewNeighbors x y).2 = g := by
  have key : ∀ (l : List (Nat × Nat)) (p : List Nat × GridState), p.2 = g →
      (l.foldl
        (fun (p : List Nat × GridState) n =>
          let r := p.2.previewSwap (y * g.width + x) (n.2 * p.2.width + n.1)
          (p.1 ++ r.1, r.2)) p).2 = g := by
    intro l
    induction l with
    | nil => intro p hp; exact hp
    | cons a t ih =>
      intro p hp
      apply ih
      show (p.2.previewSwap (y * g.width + x) (a.2 * p.2.width + a.1)).2 = g
      rw [hp]
      exact previewSwap_state g _ _
  unfold GridState.previewNeighbors
  dsimp only
  by_cases h : g.cells.length ≤ y * g.width + x
  · rw [if_pos h]
  · rw [if_neg h]
    exact key _ ([], g) rfl

/-- C3: `preview_swap(idx1, idx2)` and `preview_neighbors(x, y)` leave the
cell array (indeed the whole state) unchanged on every exit path, including
the early returns for out-of-range indices and blocker cells, so
`get_checksum()` returns the same value before and after the call regardless
of the result contents. -/
theorem claim_C3_preview_pure (g : GridState) (i j x y : Nat) :
    (g.previewSwap i j).2 = g ∧
    ((g.previewSwap i j).2).getChecksum = g.getChecksum ∧
    (g.previewNeighbors x y).2 = g ∧
    ((g.previewNeighbors x y).2).getChecksum = g.getChecksum := by
  refine ⟨previewSwap_state g i j, ?_, previewNeighbors_state g x y, ?_⟩
  · rw [previewSwap_state g i j]
  · rw [previewNeighbors_state g x y]

/-! ## Claim C4: the cycle/combo state machine -/

/-- C4: `CycleState::process_match` implements exactly the documented state
machine: from any state, if charged it increments the multiplier and returns
`(true, multiplier*2)`; else if the element equals the target it increments
chain length and multiplier, advances the target along
Water→Wood→Fire→Earth→Metal→Water, sets charged iff the chain length reaches
5, and returns `(true, multiplier)`; else it resets to the initial state
`{target=Water(3), chain=0, mult=1, charged=false}` and returns `(false, 1)`.
Consequently feeding Water, Wood, Fire, Earth, Metal in order from the
initial state yields `chain_length = 5` and `charged = true`. -/
theorem claim_C4_cycle (s : CycleState) (e : Nat) :
    (s.isAvatarState = true →
      s.processMatch e = ((true, (s.multiplier + 1) % U32 * 2 % U32),
        { s with multiplier := (s.multiplier + 1) % U32 })) ∧
    (s.isAvatarState = false → e = s.target →
      s.processMatch e = ((true, (s.multiplier + 1) % U32),
        ⟨cycleNextTarget s.target, (s.chainLength + 1) % U32, (s.multiplier + 1) % U32,
         decide (5 ≤ (s.chainLength + 1) % U32)⟩)) ∧
    (s.isAvatarState = false → e ≠ s.target →
      s.processMatch e = ((false, 1), CycleState.new)) ∧
    cycleNextTarget 3 = 2 ∧ cycleNextTarget 2 = 4 ∧ cycleNextTarget 4 = 5 ∧
    cycleNextTarget 5 = 1 ∧ cycleNextTarget 1 = 3 ∧
    (cycleFeed CycleState.new [3, 2, 4, 5, 1]).chainLength = 5 ∧
    (cycleFeed CycleState.new [3, 2, 4, 5, 1]).isAvatarState = true := by
  refine ⟨?_, ?_, ?_, by decide, by decide, by decide, by decide, by decide,
    by decide, by decide⟩
  · intro h
    simp [CycleState.processMatch, h]
  · intro h1 h2
    simp [CycleState.processMatch, h1, h2]
  · intro h1 h2
    simp [CycleState.processMatch, h1, h2, CycleState.reset, CycleState.new]

/-- Witness for C4 at concrete inputs: a charged state, a target hit from the
initial state, and a mismatch from the initial state. -/
theorem claim_C4_cycle_w :
    CycleState.processMatch ⟨3, 0, 4, true⟩ 2 = ((true, 10), ⟨3, 0, 5, true⟩) ∧
    CycleState.processMatch ⟨3, 0, 1, false⟩ 3 = ((true, 2), ⟨2, 1, 2, false⟩) ∧
    CycleState.processMatch ⟨3, 0, 1, false⟩ 4 = ((false, 1), CycleState.new) :=
  ⟨(claim_C4_cycle ⟨3, 0, 4, true⟩ 2).1 rfl,
   (claim_C4_cycle ⟨3, 0, 1, false⟩ 3).2.1 rfl rfl,
   (claim_C4_cycle ⟨3, 0, 1, false⟩ 4).2.2.1 rfl (by decide)⟩

/-! ## Run-length characterisation of `check_matches_at` -/

theorem countLeft_le (cells : List Cell) (w y el : Nat) :
    ∀ x, countLeft cells w y el x ≤ x := by
  intro x
  induction x with
  | zero => simp [countLeft]
  | succ n ih =>
    unfold countLeft
    split_ifs <;> omega

theorem countLeft_sound (cells : List Cell) (w y el : Nat) :
    ∀ x t, x - countLeft cells w y el x ≤ t → t < x → elemAt cells (y * w + t) = el := by
  intro x
  induction x with
  | zero => intro t h1 h2; omega
  | succ n ih =>
    intro t h1 h2
    unfold countLeft at h1
    split_ifs at h1 with h
    · by_cases ht : t = n
      · subst ht; exact h
      · exact ih t (by omega) (by omega)
    · omega

theorem countLeft_ge (cells : List Cell) (w y el : Nat) :
    ∀ d x, d ≤ x → (∀ t, x - d ≤ t → t < x → elemAt cells (y * w + t) = el) →
      d ≤ countLeft cells w y el x := by
  intro d
  induction d with
  | zero => intro x _ _; omega
  | succ d ih =>
    intro x hd hall
    cases x with
    | zero => omega
    | succ n =>
      unfold countLeft
      rw [if_pos (hall n (by omega) (by omega))]
      have := ih n (by omega) (fun t h1 h2 => hall t (by omega) (by omega))
      omega

theorem countRight_sound (cells : List Cell) (w y el : Nat) :
    ∀ fuel j t, j ≤ t → t < j + countRight cells w y el fuel j →
      elemAt cells (y * w + t) = el := by
  intro fuel
  induction fuel with
  | zero => intro j t h1 h2; simp [countRight] at h2; omega
  | succ f ih =>
    intro j t h1 h2
    unfold countRight at h2
    split_ifs at h2 with h
    · by_cases ht : t = j
      · subst ht; exact h.2
      · exact ih (j + 1) t (by omega) (by omega)
    · omega

theorem countRight_bound (cells : List Cell) (w y el : Nat) :
    ∀ fuel j, j ≤ w → w - j ≤ fuel → j + countRight cells w y el fuel j ≤ w := by
  intro fuel
  induction fuel with
  | zero => intro j h1 h2; simp [countRight]; omega
  | succ f ih =>
    intro j h1 h2
    unfold countRight
    split_ifs with h
    · have := ih (j + 1) (by omega) (by omega)
      omega
    · omega

theorem countRight_ge (cells : List Cell) (w y el : Nat) :
    ∀ d fuel j, d ≤ fuel → j + d ≤ w →
      (∀ t, j ≤ t → t < j + d → elemAt cells (y * w + t) = el) →
      d ≤ countRight cells w y el fuel j := by
  intro d
  induction d with
  | zero => intro fuel j _ _ _; omega
  | succ d ih =>
    intro fuel j h1 h2 hall
    cases fuel with
    | zero => omega
    | succ f =>
      unfold countRight
      rw [if_pos ⟨by omega, hall j le_rfl (by omega)⟩]
      have := ih f (j + 1) (by omega) (by omega) (fun t ha hb => hall t (by omega) (by omega))
      omega

theorem countUp_le (cells : List Cell) (w x el : Nat) :
    ∀ y, countUp cells w x el y ≤ y := by
  intro y
  induction y with
  | zero => simp [countUp]
  | succ n ih =>
    unfold countUp
    split_ifs <;> omega

theorem countUp_sound (cells : List Cell) (w x el : Nat) :
    ∀ y t, y - countUp cells w x el y ≤ t → t < y → elemAt cells (t * w + x) = el := by
  intro y
  induction y with
  | zero => intro t h1 h2; omega
  | succ n ih =>
    intro t h1 h2
    unfold countUp at h1
    split_ifs at h1 with h
    · by_cases ht : t = n
      · subst ht; exact h
      · exact ih t (by omega) (by omega)
    · omega

theorem countUp_ge (cells : List Cell) (w x el : Nat) :
    ∀ d y, d ≤ y → (∀ t, y - d ≤ t → t < y → elemAt cells (t * w + x) = el) →
      d ≤ countUp cells w x el y := by
  intro d
  induction d with
  | zero => intro y _ _; omega
  | succ d ih =>
    intro y hd hall
    cases y with
    | zero => omega
    | succ n =>
      unfold countUp
      rw [if_pos (hall n (by omega) (by omega))]
      have := ih n (by omega) (fun t h1 h2 => hall t (by omega) (by omega))
      omega

theorem countDown_sound (cells : List Cell) (w h x el : Nat) :
    ∀ fuel j t, j ≤ t → t < j + countDown cells w h x el fuel j →
      elemAt cells (t * w + x) = el := by
  intro fuel
  induction fuel with
  | zero => intro j t h1 h2; simp [countDown] at h2; omega
  | succ f ih =>
    intro j t h1 h2
    unfold countDown at h2
    split_ifs at h2 with hg
    · by_cases ht : t = j
      · subst ht; exact hg.2
      · exact ih (j + 1) t (by omega) (by omega)
    · omega

theorem countDown_bound (cells : List Cell) (w h x el : Nat) :
    ∀ fuel j, j ≤ h → h - j ≤ fuel → j + countDown cells w h x el fuel j ≤ h := by
  intro fuel
  induction fuel with
  | zero => intro j h1 h2; simp [countDown]; omega
  | succ f ih =>
    intro j h1 h2
    unfold countDown
    split_ifs with hg
    · have := ih (j + 1) (by omega) (by omega)
      omega
    · omega

theorem countDown_ge (cells : List Cell) (w h x el : Nat) :
    ∀ d fuel j, d ≤ fuel → j + d ≤ h →
      (∀ t, j ≤ t → t < j + d → elemAt cells (t * w + x) = el) →
      d ≤ countDown cells w h x el fuel j := by
  intro d
  induction d with
  | zero => intro fuel j _ _ _; omega
  | succ d ih =>
    intro fuel j h1 h2 hall
    cases fuel with
    | zero => omega
    | succ f =>
      unfold countDown
      rw [if_pos ⟨by omega, hall j le_rfl (by omega)⟩]
      have := ih f (j + 1) (by omega) (by omega) (fun t ha hb => hall t (by omega) (by omega))
      omega

theorem idx_decomp (w idx : Nat) : idx / w * w + idx % w = idx := by
  rw [Nat.mul_comm]
  exact Nat.div_add_mod idx w

/-- `check_matches_at` unfolded to a let-free form. -/
theorem checkMatchesAt_eq (g : GridState) (idx : Nat) :
    g.checkMatchesAt idx =
      (if elemAt g.cells idx = 0 then false
       else if 3 ≤ 1 + countLeft g.cells g.width (idx / g.width) (elemAt g.cells idx)
                      (idx % g.width)
                  + countRight g.cells g.width (idx / g.width) (elemAt g.cells idx)
                      g.width (idx % g.width + 1) then true
       else decide (3 ≤ 1 + countUp g.cells g.width (idx % g.width) (elemAt g.cells idx)
                      (idx / g.width)
                  + countDown g.cells g.width g.height (idx % g.width) (elemAt g.cells idx)
                      g.height (idx / g.width + 1))) := rfl

/-- If `check_matches_at` reports a point match, the index really lies in a
run of at least 3 identical (non-empty) elements. -/
theorem run_of_check (g : GridState) (idx : Nat)
    (hw : 0 < g.width) (hidx : idx < g.width * g.height)
    (hchk : g.checkMatchesAt idx = true) :
    elemAt g.cells idx ≠ 0 ∧ run3At g.cells g.width g.height idx := by
  rw [checkMatchesAt_eq] at hchk
  have hxw : idx % g.width < g.width := Nat.mod_lt idx hw
  have hyh : idx / g.width < g.height := Nat.div_lt_of_lt_mul hidx
  by_cases h0 : elemAt g.cells idx = 0
  · rw [if_pos h0] at hchk
    exact absurd hchk (by simp)
  · rw [if_neg h0] at hchk
    by_cases h3 : 3 ≤ 1 + countLeft g.cells g.width (idx / g.width) (elemAt g.cells idx)
        (idx % g.width)
        + countRight g.cells g.width (idx / g.width) (elemAt g.cells idx)
        g.width (idx % g.width + 1)
    · -- horizontal count reached 3
      refine ⟨h0, Or.inl ?_⟩
      have hclle := countLeft_le g.cells g.width (idx / g.width) (elemAt g.cells idx)
        (idx % g.width)
      have hbnd := countRight_bound g.cells g.width (idx / g.width) (elemAt g.cells idx)
        g.width (idx % g.width + 1) (by omega) (by omega)
      refine ⟨idx % g.width - countLeft g.cells g.width (idx / g.width) (elemAt g.cells idx)
        (idx % g.width), by omega,
        idx % g.width + countRight g.cells g.width (idx / g.width) (elemAt g.cells idx)
        g.width (idx % g.width + 1), by omega, by omega, by omega, by omega, ?_⟩
      intro t ht1 ht2
      rcases Nat.lt_trichotomy t (idx % g.width) with hlt | heq | hgt
      · exact countLeft_sound g.cells g.width (idx / g.width) (elemAt g.cells idx)
          (idx % g.width) t (by omega) hlt
      · rw [heq, idx_decomp]
      · exact countRight_sound g.cells g.width (idx / g.width) (elemAt g.cells idx)
          g.width (idx % g.width + 1) t (by omega) (by omega)
    · -- vertical count reached 3
      rw [if_neg h3] at hchk
      have hcv : 3 ≤ 1 + countUp g.cells g.width (idx % g.width) (elemAt g.cells idx)
          (idx / g.width)
          + countDown g.cells g.width g.height (idx % g.width) (elemAt g.cells idx)
          g.height (idx / g.width + 1) := by simpa using hchk
      refine ⟨h0, Or.inr ?_⟩
      have hcule := countUp_le g.cells g.width (idx % g.width) (elemAt g.cells idx)
        (idx / g.width)
      have hbnd := countDown_bound g.cells g.width g.height (idx % g.width)
        (elemAt g.cells idx) g.height (idx / g.width + 1) (by omega) (by omega)
      refine ⟨idx / g.width - countUp g.cells g.width (idx % g.width) (elemAt g.cells idx)
        (idx / g.width), by omega,
        idx / g.width + countDown g.cells g.width g.height (idx % g.width)
        (elemAt g.cells idx) g.height (idx / g.width + 1), by omega, by omega, by omega,
        by omega, ?_⟩
      intro t ht1 ht2
      rcases Nat.lt_trichotomy t (idx / g.width) with hlt | heq | hgt
      · exact countUp_sound g.cells g.width (idx % g.width) (elemAt g.cells idx)
          (idx / g.width) t (by omega) hlt
      · rw [heq, idx_decomp]
      · exact countDown_sound g.cells g.width g.height (idx % g.width) (elemAt g.cells idx)
          g.height (idx / g.width + 1) t (by omega) (by omega)

/-- Conversely, an index lying in a run of at least 3 identical elements
whose shared value is non-empty is reported by `check_matches_at`. -/
theorem check_of_run (g : GridState) (idx : Nat)
    (hw : 0 < g.width) (hidx : idx < g.width * g.height)
    (hne : elemAt g.cells idx ≠ 0) (hrun : run3At g.cells g.width g.height idx) :
    g.checkMatchesAt idx = true := by
  rw [checkMatchesAt_eq, if_neg hne]
  have hxw : idx % g.width < g.width := Nat.mod_lt idx hw
  have hyh : idx / g.width < g.height := Nat.div_lt_of_lt_mul hidx
  rcases hrun with ⟨a, haw, b, hbw, hax, hxb, hlen, hall⟩ |
    ⟨a, hah, b, hbh, hay, hyb, hlen, hall⟩
  · -- horizontal run gives a horizontal count of at least 3
    have hall' : ∀ t, a ≤ t → t ≤ b →
        elemAt g.cells (idx / g.width * g.width + t) = elemAt g.cells idx := by
      intro t h1 h2
      exact hall t (by omega) h1
    have h1 : idx % g.width - a ≤ countLeft g.cells g.width (idx / g.width)
        (elemAt g.cells idx) (idx % g.width) :=
      countLeft_ge g.cells g.width (idx / g.width) (elemAt g.cells idx)
        (idx % g.width - a) (idx % g.width) (by omega)
        (fun t ht1 ht2 => hall' t (by omega) (by omega))
    have h2 : b - idx % g.width ≤ countRight g.cells g.width (idx / g.width)
        (elemAt g.cells idx) g.width (idx % g.width + 1) :=
      countRight_ge g.cells g.width (idx / g.width) (elemAt g.cells idx)
        (b - idx % g.width) g.width (idx % g.width + 1) (by omega) (by omega)
        (fun t ht1 ht2 => hall' t (by omega) (by omega))
    rw [if_pos (by omega)]
  · -- vertical run gives a vertical count of at least 3
    have hall' : ∀ t, a ≤ t → t ≤ b →
        elemAt g.cells (t * g.width + idx % g.width) = elemAt g.cells idx := by
      intro t h1 h2
      exact hall t (by omega) h1
    have h1 : idx / g.width - a ≤ countUp g.cells g.width (idx % g.width)
        (elemAt g.cells idx) (idx / g.width) :=
      countUp_ge g.cells g.width (idx % g.width) (elemAt g.cells idx)
        (idx / g.width - a) (idx / g.width) (by omega)
        (fun t ht1 ht2 => hall' t (by omega) (by omega))
    have h2 : b - idx / g.width ≤ countDown g.cells g.width g.height (idx % g.width)
        (elemAt g.cells idx) g.height (idx / g.width + 1) :=
      countDown_ge g.cells g.width g.height (idx % g.width) (elemAt g.cells idx)
        (b - idx / g.width) g.height (idx / g.width + 1) (by omega) (by omega)
        (fun t ht1 ht2 => hall' t (by omega) (by omega))
    by_cases hch : 3 ≤ 1 + countLeft g.cells g.width (idx / g.width) (elemAt g.cells idx)
        (idx % g.width)
        + countRight g.cells g.width (idx / g.width) (elemAt g.cells idx)
        g.width (idx % g.width + 1)
    · rw [if_pos hch]
    · rw [if_neg hch]
      simp only [decide_eq_true_eq]
      omega

/-! ## Claim C2: `try_swap` rejection and reversibility -/

theorem width_pos_of_lt_len (g : GridState) (i : Nat)
    (hwf : g.cells.length = g.width * g.height) (hi : i < g.cells.length) :
    0 < g.width ∧ 0 < g.height := by
  have hwh : 0 < g.width * g.height := by omega
  constructor
  · rcases Nat.eq_zero_or_pos g.width with h | h
    · rw [h] at hwh; simp at hwh
    · exact h
  · rcases Nat.eq_zero_or_pos g.height with h | h
    · rw [h] at hwh; simp at hwh
    · exact h

theorem checksum_cells_eq {g g' : GridState} (h : g'.cells = g.cells) :
    g'.getChecksum = g.getChecksum := by
  unfold GridState.getChecksum
  rw [h]

/-- C2: `try_swap` returns false without any board change whenever an index
is out of range, the indices are equal, or either cell holds the blocker
element 10; otherwise it swaps the two cells and, if neither post-swap
position lies in a run of at least 3 identical elements, it rolls the swap
back and returns false; and in every false-returning case the board bytes
(and hence the checksum) are identical to before the call. -/
theorem claim_C2_trySwap (g : GridState) (i j : Nat) :
    ((g.cells.length ≤ i ∨ g.cells.length ≤ j ∨ i = j ∨
        elemAt g.cells i = 10 ∨ elemAt g.cells j = 10) →
      g.trySwap i j = (false, g)) ∧
    (g.cells.length = g.width * g.height →
      i < g.cells.length → j < g.cells.length → i ≠ j →
      elemAt g.cells i ≠ 10 → elemAt g.cells j ≠ 10 →
      ¬ run3At (swapCells g.cells i j) g.width g.height i →
      ¬ run3At (swapCells g.cells i j) g.width g.height j →
      g.trySwap i j = (false, g)) ∧
    ((g.trySwap i j).1 = false →
      (g.trySwap i j).2.cells = g.cells ∧
      (g.trySwap i j).2.getChecksum = g.getChecksum) := by
  refine ⟨?_, ?_, ?_⟩
  · -- silent rejection cases
    intro h
    unfold GridState.trySwap
    by_cases h1 : g.cells.length ≤ i ∨ g.cells.length ≤ j
    · rw [if_pos h1]
    · rw [if_neg h1]
      by_cases h2 : i = j
      · rw [if_pos h2]
      · rw [if_neg h2]
        have h3 : elemAt g.cells i = 10 ∨ elemAt g.cells j = 10 := by tauto
        rw [if_pos h3]
  · -- no run at either post-swap position: rollback
    intro hwf hi hj hij hbi hbj hri hrj
    obtain ⟨hw, hh⟩ := width_pos_of_lt_len g i hwf hi
    unfold GridState.trySwap
    rw [if_neg (by omega), if_neg hij, if_neg (by tauto)]
    have hlen : (swapCells g.cells i j).length = g.cells.length := swapCells_length g.cells i j
    have hci : ({ g with cells := swapCells g.cells i j } : GridState).checkMatchesAt i = false := by
      by_contra hc
      rw [Bool.not_eq_false] at hc
      exact hri (run_of_check { g with cells := swapCells g.cells i j } i hw
        (by simp only [hlen]; omega) hc).2
    have hcj : ({ g with cells := swapCells g.cells i j } : GridState).checkMatchesAt j = false := by
      by_contra hc
      rw [Bool.not_eq_false] at hc
      exact hrj (run_of_check { g with cells := swapCells g.cells i j } j hw
        (by simp only [hlen]; omega) hc).2
    dsimp only
    rw [if_neg (by rw [hci, hcj]; simp)]
    show (false, ({ g with cells := swapCells (swapCells g.cells i j) i j } : GridState)) =
      (false, g)
    rw [swapCells_roundtrip g.cells i j hi hj]
  · -- every false return leaves the bytes identical
    intro hfalse
    have hcells : (g.trySwap i j).2.cells = g.cells := by
      unfold GridState.trySwap at hfalse ⊢
      by_cases h1 : g.cells.length ≤ i ∨ g.cells.length ≤ j
      · rw [if_pos h1]
      · rw [if_neg h1] at hfalse ⊢
        by_cases h2 : i = j
        · rw [if_pos h2]
        · rw [if_neg h2] at hfalse ⊢
          by_cases h3 : elemAt g.cells i = 10 ∨ elemAt g.cells j = 10
          · rw [if_pos h3]
          · rw [if_neg h3] at hfalse ⊢
            dsimp only at hfalse ⊢
            by_cases h4 : (({ g with cells := swapCells g.cells i j } : GridState).checkMatchesAt i
              || ({ g with cells := swapCells g.cells i j } : GridState).checkMatchesAt j) = true
            · rw [if_pos h4] at hfalse
              simp at hfalse
            · rw [if_neg h4]
              show swapCells (swapCells g.cells i j) i j = g.cells
              exact swapCells_roundtrip g.cells i j (by omega) (by omega)
    exact ⟨hcells, checksum_cells_eq hcells⟩

/-- Witness for C2 at concrete inputs: an equal-index call, an out-of-range
call, a blocker call, a rolled-back swap with no run at either position, and
the byte-identity of a false-returning call. -/
theorem claim_C2_trySwap_w :
    corners3.trySwap 0 0 = (false, corners3) ∧
    corners3.trySwap 0 99 = (false, corners3) ∧
    stones3.trySwap 0 4 = (false, stones3) ∧
    corners3.trySwap 0 1 = (false, corners3) ∧
    (corners3.trySwap 0 1).2.cells = corners3.cells :=
  ⟨(claim_C2_trySwap corners3 0 0).1 (Or.inr (Or.inr (Or.inl rfl))),
   (claim_C2_trySwap corners3 0 99).1 (Or.inr (Or.inl (by decide))),
   (claim_C2_trySwap stones3 0 4).1 (Or.inr (Or.inr (Or.inr (Or.inl (by decide))))),
   (claim_C2_trySwap corners3 0 1).2.1 (by decide) (by decide) (by decide) (by decide)
     (by decide) (by decide) (by decide) (by decide),
   ((claim_C2_trySwap corners3 0 1).2.2 (by decide)).1⟩

/-! ## Claim C10: no adjacency requirement for `try_swap` -/

/-- Counterexample to C10 as stated: on an all-empty 3×3 board the corner
indices 0 and 8 are distinct, in range and non-blocker, and post-swap
position 0 lies in a (all-empty) run of 3 identical elements, yet the swap
is rejected, because the internal point-match check ignores empty cells. -/
theorem claim_C10_cex :
    0 < empty3.cells.length ∧ 8 < empty3.cells.length ∧ (0 : Nat) ≠ 8 ∧
    elemAt empty3.cells 0 ≠ 10 ∧ elemAt empty3.cells 8 ≠ 10 ∧
    run3At (swapCells empty3.cells 0 8) empty3.width empty3.height 0 ∧
    (empty3.trySwap 0 8).1 = false := by
  refine ⟨by decide, by decide, by decide, by decide, by decide, ?_, by decide⟩
  exact Or.inl ⟨0, by decide, 2, by decide, by decide, by decide, by decide, by decide⟩

/-- C10 (amended: the completing run must consist of non-empty cells):
`try_swap` imposes no adjacency requirement — any two distinct in-range
non-blocker indices, however far apart, are swapped, and the swap is kept
whenever either post-swap position lies in a run of at least 3 identical
non-empty elements. -/
theorem claim_C10_far_swap (g : GridState) (i j : Nat)
    (hwf : g.cells.length = g.width * g.height)
    (hi : i < g.cells.length) (hj : j < g.cells.length) (hij : i ≠ j)
    (hbi : elemAt g.cells i ≠ 10) (hbj : elemAt g.cells j ≠ 10)
    (hrun : (elemAt (swapCells g.cells i j) i ≠ 0 ∧
               run3At (swapCells g.cells i j) g.width g.height i) ∨
            (elemAt (swapCells g.cells i j) j ≠ 0 ∧
               run3At (swapCells g.cells i j) g.width g.height j)) :
    g.trySwap i j =
      (true, { g with cells := swapCells g.cells i j, isStable := false }) := by
  obtain ⟨hw, hh⟩ := width_pos_of_lt_len g i hwf hi
  unfold GridState.trySwap
  rw [if_neg (by omega), if_neg hij, if_neg (by tauto)]
  have hlen : (swapCells g.cells i j).length = g.cells.length := swapCells_length g.cells i j
  have hcheck : (({ g with cells := swapCells g.cells i j } : GridState).checkMatchesAt i
      || ({ g with cells := swapCells g.cells i j } : GridState).checkMatchesAt j) = true := by
    rcases hrun with ⟨hne, hr⟩ | ⟨hne, hr⟩
    · rw [check_of_run { g with cells := swapCells g.cells i j } i hw
        (by simp only [hlen]; omega) hne hr]
      simp
    · rw [check_of_run { g with cells := swapCells g.cells i j } j hw
        (by simp only [hlen]; omega) hne hr]
      simp
  dsimp only
  rw [if_pos hcheck]

/-- Witness for C10 at a concrete far-apart pair: swapping the opposite
corners 0 and 8 of a 3×3 board completes a Metal run in row 0 and the swap
is kept. -/
theorem claim_C10_far_swap_w :
    corners3.trySwap 0 8 =
      (true, { corners3 with cells := swapCells corners3.cells 0 8, isStable := false }) :=
  claim_C10_far_swap corners3 0 8 (by decide) (by decide) (by decide) (by decide)
    (by decide) (by decide)
    (Or.inl ⟨by decide,
      Or.inl ⟨0, by decide, 2, by decide, by decide, by decide, by decide, by decide⟩⟩)


/-! ## Claim C5: the Metal-cuts-Wood destruction scenario -/

/-- Counterexample to C5 as stated: on `demoC5` (whose only match is a
horizontal 3-cell Metal run with a Wood cell adjacent to its centre) the
cycle tracker returns multiplier 1, and one `tick()` increases the score by
`100*1 + 300 = 400`, not by the claimed `3*100*1 + 300 = 600` — the source
adds `100 * mult` once per match, not once per matched cell. -/
theorem claim_C5_cex :
    demoC5.score = 0 ∧
    CycleState.new.processMatch 1 = ((false, 1), CycleState.new) ∧
    demoC5.tick.score = 400 ∧
    (400 : Nat) ≠ 3 * 100 * 1 + 300 := by decide

/-- C5 (amended: the score award is `100*multiplier + 300`, not
`3*100*multiplier + 300`): on a board whose only match is a horizontal
3-cell Metal run with a Wood cell adjacent to the match centre, a single
`tick()` clears the three match cells and the Wood cell — the entire row
and column through the match centre are cleared — and the score increases
by exactly `100*multiplier + 300`, where the multiplier is the value the
cycle tracker returns for this match (here 1). -/
theorem claim_C5_destruction :
    findAllMatches 5 5 demoC5.cells = [⟨.line3, 1, [11, 12, 13], 12⟩] ∧
    elemAt demoC5.cells 7 = 2 ∧
    analyzeMatch 5 5 demoC5.cells ⟨.line3, 1, [11, 12, 13], 12⟩ =
      .destruction [10, 11, 12, 13, 14, 2, 7, 12, 17, 22] ∧
    CycleState.new.processMatch 1 = ((false, 1), CycleState.new) ∧
    demoC5.tick.score = demoC5.score + (100 * 1 + 300) ∧
    demoC5.tick.cells.map Cell.element =
      [5, 4, 0, 4, 5,
       4, 5, 0, 5, 4,
       0, 0, 0, 0, 0,
       4, 5, 0, 5, 4,
       5, 4, 0, 4, 5] := by decide

/-! ## Claim C7: the Water-nourishes-Wood generation rule -/

/-- Counterexample to C7 as stated: on `demoC7` the resolver does return
`Generation [center]`, but processing it in `tick()` converts the centre
cell from Water (3) to Wood (2) — an element conversion — in addition to
setting the power flag, contradicting "no element conversion on it". -/
theorem claim_C7_cex :
    findAllMatches 5 5 demoC7.cells = [⟨.line3, 3, [0, 1, 2], 1⟩] ∧
    analyzeMatch 5 5 demoC7.cells ⟨.line3, 3, [0, 1, 2], 1⟩ = .generation [1] ∧
    elemAt demoC7.cells 1 = 3 ∧
    elemAt demoC7.tick.cells 1 = 2 ∧
    (2 : Nat) ≠ 3 ∧
    (demoC7.tick.cells.getD 1 emptyCell).flags = 1 := by decide

/-- C7 (amended: processing the Generation result both powers up and
converts the centre cell): for a Water (3) match with a Wood (2) neighbour
and no Fire neighbour (so no higher-priority rule fires), the interaction
resolver returns `Generation` containing exactly the match's centre index,
and processing it in the match phase of `tick()` sets flag bit 0 on the
centre cell, converts its element to Wood (2), and removes it from the
clear set. -/
theorem claim_C7_water_wood (w h : Nat) (s : PhaseState) (m : MatchResult)
    (helt : m.element = 3)
    (hwood : (neighborsOf w h s.g.cells m).any (fun n => elemAt s.g.cells n == 2) = true)
    (hnofire : (neighborsOf w h s.g.cells m).any (fun n => elemAt s.g.cells n == 4) = false) :
    analyzeMatch w h s.g.cells m = .generation [m.centerIdx] ∧
    (matchStep w h s m).g.cells = orFlag (setElem s.g.cells m.centerIdx 2) m.centerIdx 1 ∧
    (matchStep w h s m).toClear =
      clearRemove (m.cells.foldl clearInsert s.toClear) m.centerIdx := by
  have ha : analyzeMatch w h s.g.cells m = .generation [m.centerIdx] := by
    unfold analyzeMatch
    rw [helt]
    simp [hwood, hnofire]
  refine ⟨ha, ?_, ?_⟩
  · unfold matchStep
    dsimp only
    rw [ha, helt]
    simp
    split <;> rfl
  · unfold matchStep
    dsimp only
    rw [ha, helt]
    simp

/-- Witness for C7 on `demoC7`: the board's single Water match has Wood at
index 3 as neighbour and no Fire neighbour; the resolver yields
`Generation [1]` and the match phase powers up and converts index 1. -/
theorem claim_C7_water_wood_w :
    analyzeMatch 5 5 demoC7.cells ⟨.line3, 3, [0, 1, 2], 1⟩ = .generation [1] ∧
    (matchStep 5 5 (initPhase demoC7) ⟨.line3, 3, [0, 1, 2], 1⟩).g.cells =
      orFlag (setElem demoC7.cells 1 2) 1 1 ∧
    (matchStep 5 5 (initPhase demoC7) ⟨.line3, 3, [0, 1, 2], 1⟩).toClear =
      clearRemove ([0, 1, 2].foldl clearInsert []) 1 :=
  claim_C7_water_wood 5 5 (initPhase demoC7) ⟨.line3, 3, [0, 1, 2], 1⟩ rfl
    (by decide) (by decide)

/-! ## Claim C1: determinism across identical runs -/

/-- C1 (code-bug demonstration): the match phase of `tick()` iterates the
`active_nodes` `std::collections::HashSet`, whose iteration order is
unspecified and seeded per instance, to choose the cluster processing order.
On `demoC1` the ascending enumeration of the same active set yields final
score 500, the descending enumeration yields 300: the result of an identical
`new`/`tick` call sequence depends on the hash-set iteration order, so two
independent instances driven identically need not end with equal scores,
contradicting the determinism requirement the spec states (stable traversal
order, reproducible score/event ordering). -/
theorem claim_C1_order_dep :
    ascC1.reverse.Perm ascC1 ∧
    ascC1 = (List.range (5 * 5)).filter (activeB 5 5 demoC1.cells) ∧
    (demoC1.tickWith ascC1).score = 500 ∧
    (demoC1.tickWith ascC1.reverse).score = 300 ∧
    (demoC1.tickWith ascC1).score ≠ (demoC1.tickWith ascC1.reverse).score :=
  ⟨List.reverse_perm ascC1, rfl, by decide, by decide, by decide⟩


/-! ## Claim C9: the PCG32 rejection-sampling range operation -/

theorem nextU32_lt (s : Pcg32) : s.nextU32.1 < U32 := by
  unfold Pcg32.nextU32 rotr32
  exact Nat.mod_lt _ (by decide)

theorem pcgGenLoop_sound (threshold range mn : Nat) :
    ∀ fuel (s : Pcg32) v s', pcgGenLoop threshold range mn fuel s = some (v, s') →
      ∃ r, r < U32 ∧ threshold ≤ r ∧ v = mn + r % range := by
  intro fuel
  induction fuel with
  | zero => intro s v s' h; simp [pcgGenLoop] at h
  | succ f ih =>
    intro s v s' h
    unfold pcgGenLoop at h
    dsimp only at h
    split_ifs at h with hacc
    · refine ⟨s.nextU32.1, nextU32_lt s, hacc, ?_⟩
      simp only [Option.some.injEq, Prod.mk.injEq] at h
      exact h.1.symm
    · exact ih _ v s' h

theorem mod_add_small (a d m : Nat) (ha : a < m) (hd : d < m) :
    (a + d) % m = if a + d < m then a + d else a + d - m := by
  split_ifs with h
  · exact Nat.mod_eq_of_lt h
  · rw [Nat.mod_eq_sub_mod (by omega)]
    exact Nat.mod_eq_of_lt (by omega)

theorem shift_val (a k m : Nat) (ha : a < m) (hk : k < m) :
    (k + m - a) % m = if a ≤ k then k - a else k + m - a := by
  split_ifs with h
  · rw [show k + m - a = m + (k - a) by omega, Nat.add_mod_left]
    exact Nat.mod_eq_of_lt (by omega)
  · exact Nat.mod_eq_of_lt (by omega)

/-- A half-open interval of length exactly `m` contains exactly one value in
each residue class modulo `m`. -/
theorem one_residue (T m k : Nat) (hm : 0 < m) (hk : k < m) :
    ((Finset.Ico T (T + m)).filter (fun x => x % m = k)).card = 1 := by
  have ha : T % m < m := Nat.mod_lt T hm
  have hsv := shift_val (T % m) k m ha hk
  rw [Finset.card_eq_one]
  refine ⟨T + (k + m - T % m) % m, ?_⟩
  ext x
  simp only [Finset.mem_filter, Finset.mem_Ico, Finset.mem_singleton]
  constructor
  · rintro ⟨⟨h1, h2⟩, h3⟩
    have hdm : x - T < m := by omega
    have hxmod : x % m = (T % m + (x - T)) % m := by
      conv_lhs => rw [show x = T + (x - T) by omega]
      rw [Nat.add_mod, Nat.mod_eq_of_lt hdm]
    rw [hxmod, mod_add_small (T % m) (x - T) m ha hdm] at h3
    rw [hsv]
    split_ifs at h3 with hc <;> split_ifs with hc2 <;> omega
  · rintro rfl
    rw [hsv]
    have hdm : (if T % m ≤ k then k - T % m else k + m - T % m) < m := by
      split_ifs <;> omega
    refine ⟨⟨by omega, by split_ifs <;> omega⟩, ?_⟩
    rw [Nat.add_mod, Nat.mod_eq_of_lt hdm, mod_add_small (T % m) _ m ha hdm]
    split_ifs <;> omega

/-- A half-open interval of length `m * c` contains exactly `c` values in
each residue class modulo `m`. -/
theorem card_Ico_filter_mod (m : Nat) (hm : 0 < m) :
    ∀ c T k, k < m → ((Finset.Ico T (T + m * c)).filter (fun x => x % m = k)).card = c := by
  intro c
  induction c with
  | zero => intro T k hk; simp
  | succ c ih =>
    intro T k hk
    have hsplit : Finset.Ico T (T + m * (c + 1)) =
        Finset.Ico T (T + m) ∪ Finset.Ico (T + m) (T + m + m * c) := by
      rw [Finset.Ico_union_Ico_eq_Ico (by omega) (by nlinarith)]
      congr 1
      ring
    rw [hsplit, Finset.filter_union,
      Finset.card_union_of_disjoint
        (Finset.disjoint_filter_filter (Finset.Ico_disjoint_Ico_consecutive T (T + m) _)),
      one_residue T m k hm hk, ih (T + m) k hk]
    omega

/-- C9: `Pcg32::gen_range`, for `lo < hi` in `usize` range (32 bits on the
wasm32 target), returns a value in `[lo, hi)` obtained by rejection-sampling
32-bit draws against the threshold `(2^32 − range) mod range` where
`range = hi − lo`, and the acceptance region `[threshold, 2^32)` contains
equally many values of each residue class modulo `range`, so no residue is
over-represented (no modulo bias). -/
theorem claim_C9_genRange (fuel lo hi v k1 k2 : Nat) (s s' : Pcg32)
    (hlo : lo < U32) (hhi : hi < U32) (hlt : lo < hi)
    (hk1 : k1 < hi - lo) (hk2 : k2 < hi - lo)
    (hrun : s.genRange fuel lo hi = some (v, s')) :
    lo ≤ v ∧ v < hi ∧
    (∃ r, r < U32 ∧ pcgThreshold (hi - lo) ≤ r ∧ v = lo + r % (hi - lo)) ∧
    ((Finset.Ico (pcgThreshold (hi - lo)) U32).filter (fun r => r % (hi - lo) = k1)).card =
      ((Finset.Ico (pcgThreshold (hi - lo)) U32).filter (fun r => r % (hi - lo) = k2)).card := by
  have hm : 0 < hi - lo := by omega
  have hmU : hi - lo < U32 := by omega
  unfold Pcg32.genRange at hrun
  rw [Nat.mod_eq_of_lt hlo, Nat.mod_eq_of_lt hhi, if_neg (by omega)] at hrun
  obtain ⟨r, hrU, hracc, hveq⟩ := pcgGenLoop_sound _ _ _ fuel s v s' hrun
  have hrm : r % (hi - lo) < hi - lo := Nat.mod_lt r hm
  have hTdef : pcgThreshold (hi - lo) = (U32 - (hi - lo)) % (hi - lo) := by
    unfold pcgThreshold
    rw [Nat.mod_eq_of_lt hmU, Nat.mod_eq_of_lt (show U32 - (hi - lo) < U32 by omega)]
  have hTle : pcgThreshold (hi - lo) ≤ U32 - (hi - lo) := by
    rw [hTdef]
    exact Nat.mod_le _ _
  have hdm := Nat.div_add_mod (U32 - (hi - lo)) (hi - lo)
  have hmul : (hi - lo) * ((U32 - (hi - lo)) / (hi - lo) + 1) =
      (hi - lo) * ((U32 - (hi - lo)) / (hi - lo)) + (hi - lo) := by ring
  have hc : U32 = pcgThreshold (hi - lo) +
      (hi - lo) * ((U32 - (hi - lo)) / (hi - lo) + 1) := by
    rw [hTdef, hmul]
    omega
  refine ⟨by omega, by omega, ⟨r, hrU, hracc, hveq⟩, ?_⟩
  rw [hc, card_Ico_filter_mod (hi - lo) hm _ _ k1 hk1,
    card_Ico_filter_mod (hi - lo) hm _ _ k2 hk2]

/-- Witness for C9: from the concrete seed state `(2^32, 1)` a single draw
is accepted and `gen_range(0..5)` returns 2 with the advanced state. -/
theorem claim_C9_genRange_w :
    (0 : Nat) ≤ 2 ∧ (2 : Nat) < 5 ∧
    (∃ r, r < U32 ∧ pcgThreshold 5 ≤ r ∧ (2 : Nat) = 0 + r % 5) ∧
    ((Finset.Ico (pcgThreshold 5) U32).filter (fun r => r % 5 = 0)).card =
      ((Finset.Ico (pcgThreshold 5) U32).filter (fun r => r % 5 = 3)).card := by
  have h := claim_C9_genRange 1 0 5 2 0 3 ⟨4294967296, 1⟩
    (Pcg32.nextU32 ⟨4294967296, 1⟩).2 (by decide) (by decide) (by decide)
    (by decide) (by decide) (by decide)
  exact ⟨h.1, by omega, h.2.2.1, h.2.2.2⟩


/-! ## Claim C6: Generation-converted cells and the clear pass -/

theorem mem_clearInsert (acc : List Nat) (a i : Nat) (h : i ∈ clearInsert acc a) :
    i ∈ acc ∨ i = a := by
  unfold clearInsert at h
  split_ifs at h
  · exact Or.inl h
  · rcases List.mem_append.1 h with h | h
    · exact Or.inl h
    · exact Or.inr (List.mem_singleton.1 h)

theorem mem_foldl_clearInsert :
    ∀ (l acc : List Nat) (i : Nat), i ∈ l.foldl clearInsert acc → i ∈ acc ∨ i ∈ l := by
  intro l
  induction l with
  | nil => intro acc i h; exact Or.inl h
  | cons a t ih =>
    intro acc i h
    rcases ih (clearInsert acc a) i h with hx | hx
    · rcases mem_clearInsert acc a i hx with hy | hy
      · exact Or.inl hy
      · exact Or.inr (hy ▸ List.mem_cons_self a t)
    · exact Or.inr (List.mem_cons_of_mem a hx)

theorem mem_clearRemove (l : List Nat) (a i : Nat) (h : i ∈ clearRemove l a) : i ∈ l :=
  (List.mem_filter.1 h).1

theorem not_mem_clearRemove (l : List Nat) (a : Nat) : a ∉ clearRemove l a := by
  intro h
  have := (List.mem_filter.1 h).2
  simp at this

theorem foldl_destr_fst (w : Nat) :
    ∀ (ts : List Nat) (p : List Nat × List Nat),
      (ts.foldl (fun (p : List Nat × List Nat) t =>
        (clearInsert p.1 t, pushEvent p.2 21 (t % w) (t / w) 200)) p).1 =
      ts.foldl clearInsert p.1 := by
  intro ts
  induction ts with
  | nil => intro p; rfl
  | cons a t ih => intro p; exact ih _

theorem foldl_wood_fst_mem (w : Nat) :
    ∀ (ts : List Nat) (p : List Nat × List Cell × List Nat) (i : Nat),
      i ∈ (ts.foldl (fun (p : List Nat × List Cell × List Nat) t =>
        (clearRemove p.1 t, setElem p.2.1 t 4, pushEvent p.2.2 32 (t % w) (t / w) 200)) p).1 →
      i ∈ p.1 := by
  intro ts
  induction ts with
  | nil => intro p i h; exact h
  | cons a t ih =>
    intro p i h
    exact mem_clearRemove _ _ _ (ih _ i h)

theorem foldl_wood_removed (w : Nat) :
    ∀ (ts : List Nat) (p : List Nat × List Cell × List Nat) (i : Nat), i ∈ ts →
      i ∉ (ts.foldl (fun (p : List Nat × List Cell × List Nat) t =>
        (clearRemove p.1 t, setElem p.2.1 t 4, pushEvent p.2.2 32 (t % w) (t / w) 200)) p).1 := by
  intro ts
  induction ts with
  | nil => intro p i h; cases h
  | cons a t ih =>
    intro p i h hmem
    rcases List.mem_cons.1 h with rfl | hx
    · exact not_mem_clearRemove p.1 i (foldl_wood_fst_mem w t _ i hmem)
    · exact ih _ i hx hmem

theorem foldl_water_fst_mem (w : Nat) :
    ∀ (ts : List Nat) (p : List Nat × List Cell × List Nat) (i : Nat),
      i ∈ (ts.foldl (fun (p : List Nat × List Cell × List Nat) t =>
        (clearRemove p.1 t, orFlag (setElem p.2.1 t 2) t 1,
         pushEvent p.2.2 33 (t % w) (t / w) 200)) p).1 →
      i ∈ p.1 := by
  intro ts
  induction ts with
  | nil => intro p i h; exact h
  | cons a t ih =>
    intro p i h
    exact mem_clearRemove _ _ _ (ih _ i h)

theorem foldl_water_removed (w : Nat) :
    ∀ (ts : List Nat) (p : List Nat × List Cell × List Nat) (i : Nat), i ∈ ts →
      i ∉ (ts.foldl (fun (p : List Nat × List Cell × List Nat) t =>
        (clearRemove p.1 t, orFlag (setElem p.2.1 t 2) t 1,
         pushEvent p.2.2 33 (t % w) (t / w) 200)) p).1 := by
  intro ts
  induction ts with
  | nil => intro p i h; cases h
  | cons a t ih =>
    intro p i h hmem
    rcases List.mem_cons.1 h with rfl | hx
    · exact not_mem_clearRemove p.1 i (foldl_water_fst_mem w t _ i hmem)
    · exact ih _ i hx hmem

/-- The clear set after one `matchStep`: every member was already marked, or
is one of the match's own cells, or is a Destruction target of the
interaction computed for this match. -/
theorem matchStep_toClear_mem (w h : Nat) (s : PhaseState) (m : MatchResult) (i : Nat)
    (hmem : i ∈ (matchStep w h s m).toClear) :
    i ∈ s.toClear ∨ i ∈ m.cells ∨
      i ∈ destrTargetsOf (analyzeMatch w h s.g.cells m) := by
  unfold matchStep at hmem
  dsimp only at hmem
  cases hana : analyzeMatch w h s.g.cells m with
  | noInter =>
    rw [hana] at hmem
    dsimp only at hmem
    rcases mem_foldl_clearInsert m.cells s.toClear i hmem with hx | hx
    · exact Or.inl hx
    · exact Or.inr (Or.inl hx)
  | destruction ts =>
    rw [hana] at hmem
    dsimp only at hmem
    rw [foldl_destr_fst w] at hmem
    rcases mem_foldl_clearInsert ts _ i hmem with hx | hx
    · rcases mem_foldl_clearInsert m.cells s.toClear i hx with hy | hy
      · exact Or.inl hy
      · exact Or.inr (Or.inl hy)
    · exact Or.inr (Or.inr hx)
  | generation ts =>
    rw [hana] at hmem
    dsimp only at hmem
    split_ifs at hmem with h2 h1 h3
    · have := foldl_wood_fst_mem w ts _ i hmem
      rcases mem_foldl_clearInsert m.cells s.toClear i this with hy | hy
      · exact Or.inl hy
      · exact Or.inr (Or.inl hy)
    · rcases mem_foldl_clearInsert m.cells s.toClear i hmem with hy | hy
      · exact Or.inl hy
      · exact Or.inr (Or.inl hy)
    · have := foldl_water_fst_mem w ts _ i hmem
      rcases mem_foldl_clearInsert m.cells s.toClear i this with hy | hy
      · exact Or.inl hy
      · exact Or.inr (Or.inl hy)
    · rcases mem_foldl_clearInsert m.cells s.toClear i hmem with hy | hy
      · exact Or.inl hy
      · exact Or.inr (Or.inl hy)

theorem phaseAt_succ (g : GridState) (ms : List MatchResult) (k : Nat) (hk : k < ms.length) :
    phaseAt g ms (k + 1) = matchStep g.width g.height (phaseAt g ms k) (ms.getD k default) := by
  unfold phaseAt
  rw [List.take_succ, List.foldl_append, List.getElem?_eq_getElem hk]
  simp [List.getD_eq_getElem?_getD, List.getElem?_eq_getElem hk]

theorem phaseAt_zero (g : GridState) (ms : List MatchResult) :
    phaseAt g ms 0 = initPhase g := rfl


theorem phase_toClear_source (g : GridState) (ms : List MatchResult) :
    ∀ k, k ≤ ms.length → ∀ i, i ∈ (phaseAt g ms k).toClear →
      ∃ j, j < k ∧ i ∈ insertedAt g ms j := by
  intro k
  induction k with
  | zero =>
    intro _ i hmem
    rw [phaseAt_zero] at hmem
    cases hmem
  | succ k ih =>
    intro hk i hmem
    rw [phaseAt_succ g ms k (by omega)] at hmem
    rcases matchStep_toClear_mem _ _ _ _ _ hmem with hx | hx | hx
    · obtain ⟨j, hj, hins⟩ := ih (by omega) i hx
      exact ⟨j, by omega, hins⟩
    · exact ⟨k, by omega, List.mem_append_left _ hx⟩
    · exact ⟨k, by omega, List.mem_append_right _ hx⟩

theorem toClear_reinserted (g : GridState) (ms : List MatchResult) (i : Nat) :
    ∀ b a, a ≤ b → b ≤ ms.length → i ∉ (phaseAt g ms a).toClear →
      i ∈ (phaseAt g ms b).toClear → ∃ j, a ≤ j ∧ j < b ∧ i ∈ insertedAt g ms j := by
  intro b
  induction b with
  | zero =>
    intro a h1 _ h3 h4
    have : a = 0 := by omega
    subst this
    exact absurd h4 h3
  | succ b ih =>
    intro a ha hb h3 h4
    by_cases hab : a = b + 1
    · subst hab
      exact absurd h4 h3
    · by_cases hmem : i ∈ (phaseAt g ms b).toClear
      · obtain ⟨j, hj1, hj2, hj3⟩ := ih a (by omega) (by omega) h3 hmem
        exact ⟨j, hj1, by omega, hj3⟩
      · rw [phaseAt_succ g ms b (by omega)] at h4
        rcases matchStep_toClear_mem _ _ _ _ _ h4 with hx | hx | hx
        · exact absurd hx hmem
        · exact ⟨b, by omega, by omega, List.mem_append_left _ hx⟩
        · exact ⟨b, by omega, by omega, List.mem_append_right _ hx⟩

theorem gen_removed (g : GridState) (ms : List MatchResult) (k : Nat) (l : List Nat) (i : Nat)
    (hk : k < ms.length) (hgen : interAt g ms k = .generation l)
    (helt : (ms.getD k default).element = 2 ∨ (ms.getD k default).element = 3)
    (hi : i ∈ l) :
    i ∉ (phaseAt g ms (k + 1)).toClear := by
  rw [phaseAt_succ g ms k hk]
  have hgen' : analyzeMatch g.width g.height (phaseAt g ms k).g.cells (ms.getD k default) =
      .generation l := hgen
  unfold matchStep
  dsimp only
  rw [hgen']
  dsimp only
  rcases helt with h2 | h3
  · rw [if_pos h2]
    exact foldl_wood_removed g.width l _ i hi
  · rw [if_neg (by rw [h3]; decide), if_neg (by rw [h3]; decide), if_pos h3]
    exact foldl_water_removed g.width l _ i hi

theorem gen_element (w h : Nat) (cells : List Cell) (m : MatchResult) (l : List Nat)
    (hgen : analyzeMatch w h cells m = .generation l) :
    m.element = 1 ∨ m.element = 2 ∨ m.element = 3 := by
  unfold analyzeMatch at hgen
  dsimp only at hgen
  split_ifs at hgen with h1 h2 h3 h4 h5 h6 h7 h8
  · exact Or.inr (Or.inl h6.1)
  · exact Or.inl h7.1
  · exact Or.inr (Or.inr h8.1)

theorem neighborsOf_not_mem (w h : Nat) (cells : List Cell) (m : MatchResult) (n : Nat)
    (hn : n ∈ neighborsOf w h cells m) : n ∉ m.cells := by
  unfold neighborsOf at hn
  rw [List.mem_flatMap] at hn
  obtain ⟨c, _, hmem⟩ := hn
  rw [List.mem_filter] at hmem
  have hcond := hmem.2
  simp only [Bool.and_eq_true, Bool.not_eq_true'] at hcond
  intro hmm
  have : m.cells.contains n = true := by
    simp only [List.contains, List.elem_eq_true_of_mem hmm]
  rw [hcond.1.1] at this
  cases this

/-- The Metal→Water generation targets are neighbours, hence outside the
match's own cells. -/
theorem gen_metal_targets_not_cells (w h : Nat) (cells : List Cell) (m : MatchResult)
    (l : List Nat) (i : Nat) (helt : m.element = 1)
    (hgen : analyzeMatch w h cells m = .generation l) (hi : i ∈ l) :
    i ∉ m.cells := by
  unfold analyzeMatch at hgen
  dsimp only at hgen
  split_ifs at hgen with h1 h2 h3 h4 h5 h6 h7 h8
  · have := h6.1
    omega
  · cases hgen
    exact neighborsOf_not_mem w h cells m i (List.mem_filter.1 hi).1
  · have := h8.1
    omega

theorem clearPass_not_mem (w : Nat) :
    ∀ (tc : List Nat) (p : List Cell × List Nat) (i : Nat), i ∉ tc →
      elemAt (tc.foldl (clearStep w) p).1 i = elemAt p.1 i := by
  intro tc
  induction tc with
  | nil => intro p i _; rfl
  | cons a t ih =>
    intro p i h
    have hne : a ≠ i := by
      intro he
      exact h (he ▸ List.mem_cons_self a t)
    rw [List.foldl_cons, ih _ i (fun hx => h (List.mem_cons_of_mem a hx))]
    unfold clearStep
    split_ifs with hc
    · dsimp only
      unfold elemAt
      rw [List.getD_eq_getElem?_getD, List.getD_eq_getElem?_getD,
        List.getElem?_set_ne hne]
    · rfl

/-- C6: an index appearing in a Generation interaction result (all of which
are converted rather than removed cells) is never cleared by the clear pass
of the same `tick()` unless it is independently part of another match's
clear-set contribution: if no other match contributes it, the index is
absent from the final clear set and the clear pass leaves its cell element
unchanged. -/
theorem claim_C6_generation (g : GridState) (ms : List MatchResult) (k i : Nat)
    (l : List Nat) (hk : k < ms.length)
    (hgen : interAt g ms k = .generation l) (hi : i ∈ l)
    (hnot : ∀ j, j < ms.length → j ≠ k → i ∉ insertedAt g ms j) :
    i ∉ (phaseAt g ms ms.length).toClear ∧
    elemAt ((phaseAt g ms ms.length).toClear.foldl (clearStep g.width)
        ((phaseAt g ms ms.length).g.cells, (phaseAt g ms ms.length).g.events)).1 i =
      elemAt (phaseAt g ms ms.length).g.cells i := by
  have hgen' : analyzeMatch g.width g.height (phaseAt g ms k).g.cells (ms.getD k default) =
      .generation l := hgen
  have hmain : i ∉ (phaseAt g ms ms.length).toClear := by
    rcases gen_element _ _ _ _ _ hgen' with h1 | h2 | h3
    · -- Metal→Water: targets are neighbours, never inserted by this match
      intro hmem
      obtain ⟨j, hj, hins⟩ := phase_toClear_source g ms ms.length le_rfl i hmem
      by_cases hjk : j = k
      · subst hjk
        unfold insertedAt at hins
        rcases List.mem_append.1 hins with hx | hx
        · exact gen_metal_targets_not_cells _ _ _ _ l i h1 hgen' hi hx
        · rw [show interAt g ms j = .generation l from hgen] at hx
          cases hx
      · exact hnot j hj hjk hins
    · -- Wood→Fire: removed at step k, re-insertion needs another match
      intro hmem
      have hrem := gen_removed g ms k l i hk hgen (Or.inl h2) hi
      obtain ⟨j, hj1, hj2, hj3⟩ :=
        toClear_reinserted g ms i ms.length (k + 1) (by omega) le_rfl hrem hmem
      exact hnot j hj2 (by omega) hj3
    · -- Water→Wood: removed at step k, re-insertion needs another match
      intro hmem
      have hrem := gen_removed g ms k l i hk hgen (Or.inr h3) hi
      obtain ⟨j, hj1, hj2, hj3⟩ :=
        toClear_reinserted g ms i ms.length (k + 1) (by omega) le_rfl hrem hmem
      exact hnot j hj2 (by omega) hj3
  exact ⟨hmain, clearPass_not_mem g.width _ _ i hmain⟩

/-- Witness for C6 on `demoC7`: the Water match's Generation result contains
index 1; with no other match present, index 1 is not in the final clear set
and the clear pass leaves its (converted) element untouched. -/
theorem claim_C6_generation_w :
    (1 : Nat) ∉ (phaseAt demoC7 [⟨.line3, 3, [0, 1, 2], 1⟩] 1).toClear ∧
    elemAt ((phaseAt demoC7 [⟨.line3, 3, [0, 1, 2], 1⟩] 1).toClear.foldl
        (clearStep demoC7.width)
        ((phaseAt demoC7 [⟨.line3, 3, [0, 1, 2], 1⟩] 1).g.cells,
         (phaseAt demoC7 [⟨.line3, 3, [0, 1, 2], 1⟩] 1).g.events)).1 1 =
      elemAt (phaseAt demoC7 [⟨.line3, 3, [0, 1, 2], 1⟩] 1).g.cells 1 :=
  claim_C6_generation demoC7 [⟨.line3, 3, [0, 1, 2], 1⟩] 0 1 [1] (by decide)
    (by decide) (by decide) (by intro j hj hne; simp at hj; omega)


/-! ## Claim C8: groundwork — visited vectors and board geometry -/

theorem visB_set_self (v : List Bool) (u : Nat) (hu : u < v.length) :
    visB (v.set u true) u = true := by
  unfold visB
  rw [List.getD_eq_getElem?_getD, List.getElem?_set_self (by simpa using hu)]
  rfl

theorem visB_set_ne (v : List Bool) (u i : Nat) (h : u ≠ i) :
    visB (v.set u true) i = visB v i := by
  unfold visB
  rw [List.getD_eq_getElem?_getD, List.getElem?_set_ne h, ← List.getD_eq_getElem?_getD]

theorem visB_set_iff (v : List Bool) (u i : Nat) (hu : u < v.length) :
    visB (v.set u true) i = true ↔ visB v i = true ∨ i = u := by
  by_cases hiu : i = u
  · subst hiu
    simp [visB_set_self v i hu]
  · rw [visB_set_ne v u i (fun he => hiu he.symm)]
    simp [hiu]

theorem visB_replicate (n i : Nat) : visB (List.replicate n false) i = false := by
  unfold visB
  rw [List.getD_eq_getElem?_getD, List.getElem?_replicate]
  split_ifs <;> rfl

theorem count_false_set_true :
    ∀ (v : List Bool) (u : Nat), u < v.length → visB v u = false →
      (v.set u true).count false + 1 = v.count false := by
  intro v
  induction v with
  | nil => intro u hu _; cases hu
  | cons b t ih =>
    intro u hu hvb
    cases u with
    | zero =>
      have hb : b = false := by
        simpa [visB, List.getD] using hvb
      subst hb
      simp [List.set, List.count_cons]
    | succ u =>
      have ht : visB t u = false := by
        simpa [visB, List.getD] using hvb
      have := ih u (by simpa using hu) ht
      simp only [List.set, List.count_cons]
      omega

theorem idx_mod (w y c : Nat) (hc : c < w) : (y * w + c) % w = c := by
  rw [Nat.add_comm, Nat.add_mul_mod_self_right]
  exact Nat.mod_eq_of_lt hc

theorem idx_div (w y c : Nat) (hc : c < w) : (y * w + c) / w = y := by
  have hw : 0 < w := by omega
  rw [Nat.add_comm, Nat.add_mul_div_right c y hw, Nat.div_eq_of_lt hc]
  omega

theorem mem_nbrs (w h i j : Nat) : j ∈ nbrs w h i ↔
    (0 < i / w ∧ j = i - w) ∨ (i / w < h - 1 ∧ j = i + w) ∨
    (0 < i % w ∧ j = i - 1) ∨ (i % w < w - 1 ∧ j = i + 1) := by
  unfold nbrs
  simp only [List.mem_append, List.mem_singleton]
  split_ifs <;> simp_all <;> omega

theorem nbrs_symm (w h i j : Nat) (hi : i < w * h) (hj : j ∈ nbrs w h i) :
    i ∈ nbrs w h j := by
  have hw : 0 < w := by
    rcases Nat.eq_zero_or_pos w with h0 | h0
    · subst h0; simp at hi
    · exact h0
  have hdm := idx_decomp w i
  have hxw : i % w < w := Nat.mod_lt i hw
  have hyh : i / w < h := Nat.div_lt_of_lt_mul hi
  rw [mem_nbrs] at hj
  rw [mem_nbrs]
  rcases hj with ⟨hc, rfl⟩ | ⟨hc, rfl⟩ | ⟨hc, rfl⟩ | ⟨hc, rfl⟩
  · -- up neighbour: i - w = (i/w - 1) * w + i % w
    have hge : w ≤ i := by
      by_contra hlt
      push_neg at hlt
      rw [Nat.div_eq_of_lt hlt] at hc
      exact absurd hc (by omega)
    have hb : w ≤ i / w * w := Nat.le_mul_of_pos_left w hc
    have hrw : i - w = (i / w - 1) * w + i % w := by
      rw [Nat.sub_mul, one_mul]
      omega
    refine Or.inr (Or.inl ⟨?_, by omega⟩)
    rw [hrw, idx_div w _ _ hxw]
    omega
  · -- down neighbour
    exact Or.inl ⟨Nat.div_pos (by omega) hw, by omega⟩
  · -- left neighbour: i - 1 = (i/w) * w + (i % w - 1)
    have hrw : i - 1 = i / w * w + (i % w - 1) := by omega
    refine Or.inr (Or.inr (Or.inr ⟨?_, by omega⟩))
    rw [hrw, idx_mod w _ _ (by omega)]
    omega
  · -- right neighbour: i + 1 = (i/w) * w + (i % w + 1)
    have hrw : i + 1 = i / w * w + (i % w + 1) := by omega
    refine Or.inr (Or.inr (Or.inl ⟨?_, by omega⟩))
    rw [hrw, idx_mod w _ _ (by omega)]
    omega

/-! ## Claim C8: the raw run scans -/

theorem runEnd_spec (cells : List Cell) (w y el : Nat) :
    ∀ fuel k, k ≤ w → w - k ≤ fuel →
      k ≤ runEnd cells w y el fuel k ∧ runEnd cells w y el fuel k ≤ w ∧
      ∀ t, k ≤ t → t < runEnd cells w y el fuel k → elemAt cells (y * w + t) = el := by
  intro fuel
  induction fuel with
  | zero =>
    intro k h1 _
    refine ⟨le_rfl, ?_, ?_⟩
    · simpa [runEnd] using h1
    · intro t ht1 ht2
      simp only [runEnd] at ht2
      omega
  | succ f ih =>
    intro k h1 h2
    unfold runEnd
    split_ifs with hg
    · have hrec := ih (k + 1) (by omega) (by omega)
      refine ⟨by omega, hrec.2.1, ?_⟩
      intro t ht1 ht2
      by_cases htk : t = k
      · subst htk; exact hg.2
      · exact hrec.2.2 t (by omega) ht2
    · exact ⟨le_rfl, h1, fun t ht1 ht2 => by omega⟩

theorem scanRow_mem (cells : List Cell) (w y : Nat) :
    ∀ fuel x0 r, r ∈ scanRow cells w y fuel x0 →
      ∃ x len, r = (List.range len).map (fun t => y * w + (x + t)) ∧ 3 ≤ len ∧
        x + len ≤ w ∧ elemAt cells (y * w + x) ≠ 0 ∧
        ∀ t, t < len → elemAt cells (y * w + (x + t)) = elemAt cells (y * w + x) := by
  intro fuel
  induction fuel with
  | zero => intro x0 r hr; simp [scanRow] at hr
  | succ f ih =>
    intro x0 r hr
    unfold scanRow at hr
    dsimp only at hr
    by_cases hx : x0 < w - 2
    · rw [if_pos hx] at hr
      by_cases hel : elemAt cells (y * w + x0) = 0
      · rw [if_pos hel] at hr
        exact ih (x0 + 1) r hr
      · rw [if_neg hel] at hr
        by_cases hlen : 3 ≤ runEnd cells w y (elemAt cells (y * w + x0)) w (x0 + 1) - x0
        · rw [if_pos hlen] at hr
          rcases List.mem_cons.1 hr with rfl | htail
          · have hspec := runEnd_spec cells w y (elemAt cells (y * w + x0)) w (x0 + 1)
              (by omega) (by omega)
            refine ⟨x0, runEnd cells w y (elemAt cells (y * w + x0)) w (x0 + 1) - x0,
              rfl, hlen, by omega, hel, ?_⟩
            intro t ht
            by_cases ht0 : t = 0
            · subst ht0; rfl
            · exact hspec.2.2 (x0 + t) (by omega) (by omega)
          · exact ih _ r htail
        · rw [if_neg hlen] at hr
          exact ih _ r hr
    · rw [if_neg hx] at hr
      cases hr

theorem runEndV_spec (cells : List Cell) (w h x el : Nat) :
    ∀ fuel k, k ≤ h → h - k ≤ fuel →
      k ≤ runEndV cells w h x el fuel k ∧ runEndV cells w h x el fuel k ≤ h ∧
      ∀ t, k ≤ t → t < runEndV cells w h x el fuel k → elemAt cells (t * w + x) = el := by
  intro fuel
  induction fuel with
  | zero =>
    intro k h1 _
    refine ⟨le_rfl, ?_, ?_⟩
    · simpa [runEndV] using h1
    · intro t ht1 ht2
      simp only [runEndV] at ht2
      omega
  | succ f ih =>
    intro k h1 h2
    unfold runEndV
    split_ifs with hg
    · have hrec := ih (k + 1) (by omega) (by omega)
      refine ⟨by omega, hrec.2.1, ?_⟩
      intro t ht1 ht2
      by_cases htk : t = k
      · subst htk; exact hg.2
      · exact hrec.2.2 t (by omega) ht2
    · exact ⟨le_rfl, h1, fun t ht1 ht2 => by omega⟩

theorem scanCol_mem (cells : List Cell) (w h x : Nat) :
    ∀ fuel y0 r, r ∈ scanCol cells w h x fuel y0 →
      ∃ y len, r = (List.range len).map (fun t => (y + t) * w + x) ∧ 3 ≤ len ∧
        y + len ≤ h ∧ elemAt cells (y * w + x) ≠ 0 ∧
        ∀ t, t < len → elemAt cells ((y + t) * w + x) = elemAt cells (y * w + x) := by
  intro fuel
  induction fuel with
  | zero => intro y0 r hr; simp [scanCol] at hr
  | succ f ih =>
    intro y0 r hr
    unfold scanCol at hr
    dsimp only at hr
    by_cases hy : y0 < h - 2
    · rw [if_pos hy] at hr
      by_cases hel : elemAt cells (y0 * w + x) = 0
      · rw [if_pos hel] at hr
        exact ih (y0 + 1) r hr
      · rw [if_neg hel] at hr
        by_cases hlen : 3 ≤ runEndV cells w h x (elemAt cells (y0 * w + x)) h (y0 + 1) - y0
        · rw [if_pos hlen] at hr
          rcases List.mem_cons.1 hr with rfl | htail
          · have hspec := runEndV_spec cells w h x (elemAt cells (y0 * w + x)) h (y0 + 1)
              (by omega) (by omega)
            refine ⟨y0, runEndV cells w h x (elemAt cells (y0 * w + x)) h (y0 + 1) - y0,
              rfl, hlen, by omega, hel, ?_⟩
            intro t ht
            by_cases ht0 : t = 0
            · subst ht0; rfl
            · exact hspec.2.2 (y0 + t) (by omega) (by omega)
          · exact ih _ r htail
        · rw [if_neg hlen] at hr
          exact ih _ r hr
    · rw [if_neg hy] at hr
      cases hr

theorem idx_lt (w h y c : Nat) (hy : y < h) (hc : c < w) : y * w + c < w * h := by
  have h1 : y * w + c < (y + 1) * w := by
    rw [Nat.succ_mul]
    omega
  have h2 : (y + 1) * w ≤ h * w := Nat.mul_le_mul_right w (by omega)
  rw [Nat.mul_comm w h]
  omega

theorem run_getD {len : Nat} (f : Nat → Nat) (t : Nat) (ht : t < len) :
    ((List.range len).map f).getD t 0 = f t := by
  rw [List.getD_eq_getElem?_getD,
    List.getElem?_eq_getElem (by simpa using ht)]
  simp

theorem contains_of_mem {l : List Nat} {a : Nat} (h : a ∈ l) : l.contains a = true := by
  simp only [List.contains, List.elem_eq_true_of_mem h]

/-- Every active node lies on a recorded raw run: a duplicate-free list of at
least 3 board indices, chain-adjacent in both directions, all active, all
holding the same non-empty element as the node itself. -/
theorem active_mem_run (w h : Nat) (cells : List Cell) (i : Nat)
    (hact : activeB w h cells i = true) :
    ∃ R : List Nat, i ∈ R ∧ 3 ≤ R.length ∧ R.Nodup ∧
      (∀ j ∈ R, j < w * h ∧ elemAt cells j = elemAt cells i ∧
        activeB w h cells j = true ∧ elemAt cells j ≠ 0) ∧
      (∀ t, t + 1 < R.length → R.getD (t + 1) 0 ∈ nbrs w h (R.getD t 0) ∧
        R.getD t 0 ∈ nbrs w h (R.getD (t + 1) 0)) := by
  unfold activeB at hact
  rw [List.any_eq_true] at hact
  obtain ⟨r, hrmem, hcont⟩ := hact
  have hir : i ∈ r := by
    rw [List.contains_iff_exists_mem_beq] at hcont
    obtain ⟨a, ha, hbeq⟩ := hcont
    rwa [show i = a from by simpa using hbeq]
  have hactR : ∀ j ∈ r, activeB w h cells j = true := by
    intro j hj
    unfold activeB
    rw [List.any_eq_true]
    exact ⟨r, hrmem, contains_of_mem hj⟩
  rcases List.mem_append.1 hrmem with hrh | hrv
  · -- horizontal run
    obtain ⟨y, hy, hmem⟩ := List.mem_flatMap.1 hrh
    obtain ⟨x, len, hreq, hlen, hxw, hne, hall⟩ := scanRow_mem cells w y w 0 r hmem
    have hy' : y < h := List.mem_range.1 hy
    have hex : ∃ t, t < len ∧ y * w + (x + t) = i := by
      rw [hreq] at hir
      obtain ⟨t, ht, hteq⟩ := List.mem_map.1 hir
      exact ⟨t, List.mem_range.1 ht, hteq⟩
    obtain ⟨ti, hti, htieq⟩ := hex
    have hbase : elemAt cells i = elemAt cells (y * w + x) := by
      rw [← htieq]
      exact hall ti hti
    refine ⟨r, hir, by rw [hreq]; simpa using hlen, ?_, ?_, ?_⟩
    · rw [hreq]
      exact List.Nodup.map (fun a b hab => by omega) (List.nodup_range len)
    · intro j hj
      have hj0 := hj
      rw [hreq] at hj
      obtain ⟨t, ht, hteq⟩ := List.mem_map.1 hj
      have ht' : t < len := List.mem_range.1 ht
      subst hteq
      refine ⟨idx_lt w h y (x + t) hy' (by omega), ?_, hactR _ hj0, ?_⟩
      · rw [hall t ht', hbase]
      · rw [hall t ht']
        exact hne
    · intro t ht
      rw [hreq] at ht
      simp only [List.length_map, List.length_range] at ht
      rw [hreq, run_getD _ t (by omega), run_getD _ (t + 1) (by omega)]
      have hmod : (y * w + (x + t)) % w = x + t := idx_mod w y (x + t) (by omega)
      constructor
      · rw [mem_nbrs]
        refine Or.inr (Or.inr (Or.inr ⟨?_, by omega⟩))
        rw [hmod]
        omega
      · rw [mem_nbrs]
        have hmod' : (y * w + (x + (t + 1))) % w = x + (t + 1) :=
          idx_mod w y (x + (t + 1)) (by omega)
        refine Or.inr (Or.inr (Or.inl ⟨?_, by omega⟩))
        rw [hmod']
        omega
  · -- vertical run
    obtain ⟨x, hx, hmem⟩ := List.mem_flatMap.1 hrv
    obtain ⟨y, len, hreq, hlen, hyh, hne, hall⟩ := scanCol_mem cells w h x h 0 r hmem
    have hx' : x < w := List.mem_range.1 hx
    have hex : ∃ t, t < len ∧ (y + t) * w + x = i := by
      rw [hreq] at hir
      obtain ⟨t, ht, hteq⟩ := List.mem_map.1 hir
      exact ⟨t, List.mem_range.1 ht, hteq⟩
    obtain ⟨ti, hti, htieq⟩ := hex
    have hbase : elemAt cells i = elemAt cells (y * w + x) := by
      rw [← htieq]
      exact hall ti hti
    have hw : 0 < w := by omega
    refine ⟨r, hir, by rw [hreq]; simpa using hlen, ?_, ?_, ?_⟩
    · rw [hreq]
      refine List.Nodup.map (fun a b hab => ?_) (List.nodup_range len)
      have : (y + a) * w = (y + b) * w := by omega
      have := Nat.eq_of_mul_eq_mul_right hw this
      omega
    · intro j hj
      have hj0 := hj
      rw [hreq] at hj
      obtain ⟨t, ht, hteq⟩ := List.mem_map.1 hj
      have ht' : t < len := List.mem_range.1 ht
      subst hteq
      refine ⟨idx_lt w h (y + t) x (by omega) hx', ?_, hactR _ hj0, ?_⟩
      · rw [hall t ht', hbase]
      · rw [hall t ht']
        exact hne
    · intro t ht
      rw [hreq] at ht
      simp only [List.length_map, List.length_range] at ht
      rw [hreq, run_getD _ t (by omega), run_getD _ (t + 1) (by omega)]
      have hdiv : ((y + t) * w + x) / w = y + t := idx_div w (y + t) x hx'
      have hdiv' : ((y + (t + 1)) * w + x) / w = y + (t + 1) := idx_div w (y + (t + 1)) x hx'
      have harith : (y + (t + 1)) * w + x = (y + t) * w + x + w := by
        rw [show y + (t + 1) = (y + t) + 1 from by omega, Nat.succ_mul]
        omega
      constructor
      · rw [mem_nbrs]
        refine Or.inr (Or.inl ⟨?_, by omega⟩)
        rw [hdiv]
        omega
      · rw [mem_nbrs]
        refine Or.inl ⟨?_, by omega⟩
        rw [hdiv']
        omega

theorem activeB_lt (w h : Nat) (cells : List Cell) (i : Nat)
    (hact : activeB w h cells i = true) : i < w * h := by
  obtain ⟨R, hiR, _, _, hprops, _⟩ := active_mem_run w h cells i hact
  exact (hprops i hiR).1


theorem nbrs_lt (w h i j : Nat) (hi : i < w * h) (hj : j ∈ nbrs w h i) :
    j < w * h := by
  have hw : 0 < w := by
    rcases Nat.eq_zero_or_pos w with h0 | h0
    · subst h0; simp at hi
    · exact h0
  have hdm := idx_decomp w i
  have hxw : i % w < w := Nat.mod_lt i hw
  have hyh : i / w < h := Nat.div_lt_of_lt_mul hi
  rw [mem_nbrs] at hj
  rcases hj with ⟨h1, rfl⟩ | ⟨h1, rfl⟩ | ⟨h1, rfl⟩ | ⟨h1, rfl⟩
  · omega
  · have hnn := Nat.zero_le (i / w)
    have h5 : i / w + 2 ≤ h := by omega
    have h2 : (i / w + 2) * w ≤ h * w := Nat.mul_le_mul h5 (Nat.le_refl w)
    have h3 : (i / w + 2) * w = i / w * w + 2 * w := by ring
    have h4 : h * w = w * h := Nat.mul_comm h w
    omega
  · omega
  · have hnn := Nat.zero_le (i / w)
    have h5 : i / w + 1 ≤ h := by omega
    have h2 : (i / w + 1) * w ≤ h * w := Nat.mul_le_mul h5 (Nat.le_refl w)
    have h3 : (i / w + 1) * w = i / w * w + w := by ring
    have h4 : h * w = w * h := Nat.mul_comm h w
    omega

theorem expandF_pos (cells : List Cell) (act : Nat → Bool) (elt : Nat)
    (visited : List Bool) (queue : List Nat) (n : Nat)
    (hg : act n = true ∧ visited.getD n false = false ∧ elemAt cells n = elt) :
    expandF cells act elt (visited, queue) n = (visited.set n true, queue ++ [n]) := by
  unfold expandF
  split_ifs with hc
  · rfl
  · exact absurd hg hc

theorem expandF_neg (cells : List Cell) (act : Nat → Bool) (elt : Nat)
    (visited : List Bool) (queue : List Nat) (n : Nat)
    (hg : ¬(act n = true ∧ visited.getD n false = false ∧ elemAt cells n = elt)) :
    expandF cells act elt (visited, queue) n = (visited, queue) := by
  unfold expandF
  split_ifs with hc
  · exact absurd hc hg
  · rfl

/-- Characterisation of the neighbour fold of `bfsExpand` over an arbitrary
candidate list `ns` (all in range): the queue grows by a block `new` of fresh
qualifying nodes without duplicates, exactly those get newly marked, the
false-count of the visited vector drops by `new.length`, and afterwards every
qualifying candidate of `ns` is marked. -/
theorem expandF_spec (w h : Nat) (cells : List Cell) (act : Nat → Bool)
    (elt : Nat) :
    ∀ (ns : List Nat) (visited : List Bool) (queue : List Nat),
      (∀ n ∈ ns, n < visited.length) →
      ∃ new : List Nat,
        (ns.foldl (expandF cells act elt) (visited, queue)).1.length = visited.length ∧
        (ns.foldl (expandF cells act elt) (visited, queue)).2 = queue ++ new ∧
        new.Nodup ∧
        (∀ n ∈ new, n ∈ ns ∧ act n = true ∧ elemAt cells n = elt ∧
          visB visited n = false) ∧
        (∀ i, visB (ns.foldl (expandF cells act elt) (visited, queue)).1 i = true ↔
          visB visited i = true ∨ i ∈ new) ∧
        (ns.foldl (expandF cells act elt) (visited, queue)).1.count false + new.length
          = visited.count false ∧
        (∀ n ∈ ns, act n = true → elemAt cells n = elt →
          visB (ns.foldl (expandF cells act elt) (visited, queue)).1 n = true) := by
  intro ns
  induction ns with
  | nil =>
    intro visited queue _
    exact ⟨[], rfl, by simp, List.nodup_nil, by simp, by simp [visB], by simp, by simp⟩
  | cons n ns ih =>
    intro visited queue hbound
    have hn : n < visited.length := hbound n (List.mem_cons_self n ns)
    rw [List.foldl_cons]
    by_cases hg : act n = true ∧ visited.getD n false = false ∧ elemAt cells n = elt
    · rw [expandF_pos cells act elt visited queue n hg]
      obtain ⟨new, hlen, hq, hnd, hmem, hiff, hcnt, hcl⟩ :=
        ih (visited.set n true) (queue ++ [n]) (fun m hm => by
          rw [List.length_set]; exact hbound m (List.mem_cons_of_mem n hm))
      refine ⟨n :: new, by rw [hlen, List.length_set], ?_, ?_, ?_, ?_, ?_, ?_⟩
      · rw [hq]; simp
      · refine List.nodup_cons.2 ⟨?_, hnd⟩
        intro hcon
        have hvn := (hmem n hcon).2.2.2
        rw [visB_set_self visited n hn] at hvn
        simp at hvn
      · intro m hm
        rcases List.mem_cons.1 hm with rfl | hm2
        · exact ⟨List.mem_cons_self _ _, hg.1, hg.2.2, hg.2.1⟩
        · obtain ⟨h1, h2, h3, h4⟩ := hmem m hm2
          have hmn : n ≠ m := by
            intro he
            subst he
            rw [visB_set_self visited n hn] at h4
            simp at h4
          rw [visB_set_ne visited n m hmn] at h4
          exact ⟨List.mem_cons_of_mem _ h1, h2, h3, h4⟩
      · intro i
        rw [hiff i, visB_set_iff visited n i hn]
        constructor
        · rintro ((hv | rfl) | hnew)
          · exact Or.inl hv
          · exact Or.inr (List.mem_cons_self _ _)
          · exact Or.inr (List.mem_cons_of_mem _ hnew)
        · rintro (hv | hni)
          · exact Or.inl (Or.inl hv)
          · rcases List.mem_cons.1 hni with rfl | hnew
            · exact Or.inl (Or.inr rfl)
            · exact Or.inr hnew
      · have hc1 := count_false_set_true visited n hn hg.2.1
        simp only [List.length_cons]
        omega
      · intro m hm hma hme
        rcases List.mem_cons.1 hm with rfl | hm2
        · rw [hiff m]
          exact Or.inl (visB_set_self visited m hn)
        · exact hcl m hm2 hma hme
    · rw [expandF_neg cells act elt visited queue n hg]
      obtain ⟨new, hlen, hq, hnd, hmem, hiff, hcnt, hcl⟩ :=
        ih visited queue (fun m hm => hbound m (List.mem_cons_of_mem n hm))
      refine ⟨new, hlen, hq, hnd, ?_, hiff, hcnt, ?_⟩
      · intro m hm
        obtain ⟨h1, h2, h3, h4⟩ := hmem m hm
        exact ⟨List.mem_cons_of_mem _ h1, h2, h3, h4⟩
      · intro m hm hma hme
        rcases List.mem_cons.1 hm with rfl | hm2
        · have hvm : visB visited m = true := by
            rcases Bool.eq_false_or_eq_true (visB visited m) with ht | hf
            · exact ht
            · exact absurd ⟨hma, hf, hme⟩ hg
          rw [hiff m]
          exact Or.inl hvm
        · exact hcl m hm2 hma hme

theorem bfsExpand_eq (w h : Nat) (cells : List Cell) (act : Nat → Bool)
    (elt curr : Nat) (visited : List Bool) (queue : List Nat) :
    bfsExpand w h cells act elt curr visited queue =
      (nbrs w h curr).foldl (expandF cells act elt) (visited, queue) := rfl

/-- Main invariant of the BFS loop of `find_all_matches`: from a well-formed
frontier the loop returns a duplicate-free cluster of in-range active
same-element nodes reachable from `start`, marks exactly the cluster on top
of the initial visited set `V0`, absorbs the whole frontier, and leaves every
qualifying neighbour of a cluster node marked. -/
theorem bfsLoop_main (w h : Nat) (cells : List Cell) (act : Nat → Bool)
    (elt start : Nat) :
    ∀ (fuel : Nat) (queue : List Nat) (visited : List Bool) (acc : List Nat)
      (V0 : List Bool),
      visited.length = w * h →
      (∀ i, visB visited i = true ↔ visB V0 i = true ∨ i ∈ acc ++ queue) →
      (acc ++ queue).Nodup →
      (∀ i ∈ acc ++ queue, visB V0 i = false) →
      (∀ i ∈ acc ++ queue, i < w * h ∧ act i = true ∧ elemAt cells i = elt) →
      (∀ i ∈ acc ++ queue,
        Relation.ReflTransGen (adjActive w h cells act elt) start i) →
      (∀ i ∈ acc, ∀ u ∈ nbrs w h i, act u = true → elemAt cells u = elt →
        visB visited u = true) →
      2 * visited.count false + queue.length ≤ fuel →
      (bfsLoop w h cells act elt fuel queue visited acc).2.length = w * h ∧
      (∀ i, visB (bfsLoop w h cells act elt fuel queue visited acc).2 i = true ↔
        visB V0 i = true ∨ i ∈ (bfsLoop w h cells act elt fuel queue visited acc).1) ∧
      (bfsLoop w h cells act elt fuel queue visited acc).1.Nodup ∧
      (∀ i ∈ acc ++ queue, i ∈ (bfsLoop w h cells act elt fuel queue visited acc).1) ∧
      (∀ i ∈ (bfsLoop w h cells act elt fuel queue visited acc).1,
        visB V0 i = false ∧ i < w * h ∧ act i = true ∧ elemAt cells i = elt ∧
        Relation.ReflTransGen (adjActive w h cells act elt) start i) ∧
      (∀ i ∈ (bfsLoop w h cells act elt fuel queue visited acc).1,
        ∀ u ∈ nbrs w h i, act u = true → elemAt cells u = elt →
          visB (bfsLoop w h cells act elt fuel queue visited acc).2 u = true) := by
  intro fuel
  induction fuel with
  | zero =>
    intro queue visited acc V0 hlen hiff hnd hV0 hprops hreach hclose hpot
    have hq : queue = [] := by
      cases queue with
      | nil => rfl
      | cons a l =>
        exfalso
        simp only [List.length_cons] at hpot
        omega
    subst hq
    simp only [List.append_nil] at hiff hnd hV0 hprops hreach ⊢
    exact ⟨hlen, hiff, hnd, fun i hi => hi,
      fun i hi => ⟨hV0 i hi, (hprops i hi).1, (hprops i hi).2.1, (hprops i hi).2.2,
        hreach i hi⟩, hclose⟩
  | succ f ih =>
    intro queue visited acc V0 hlen hiff hnd hV0 hprops hreach hclose hpot
    cases queue with
    | nil =>
      simp only [List.append_nil] at hiff hnd hV0 hprops hreach ⊢
      exact ⟨hlen, hiff, hnd, fun i hi => hi,
        fun i hi => ⟨hV0 i hi, (hprops i hi).1, (hprops i hi).2.1, (hprops i hi).2.2,
          hreach i hi⟩, hclose⟩
    | cons curr rest =>
      have hcurrmem : curr ∈ acc ++ curr :: rest := by simp
      have hcurr : curr < w * h := (hprops curr hcurrmem).1
      have hcact : act curr = true := (hprops curr hcurrmem).2.1
      have hcelt : elemAt cells curr = elt := (hprops curr hcurrmem).2.2
      have hb : ∀ n ∈ nbrs w h curr, n < visited.length := fun n hn => by
        rw [hlen]
        exact nbrs_lt w h curr n hcurr hn
      obtain ⟨new, hElen, hEq, hEnd, hEmem, hEiff, hEcnt, hEcl⟩ :=
        expandF_spec w h cells act elt (nbrs w h curr) visited rest hb
      have hstep : bfsLoop w h cells act elt (f + 1) (curr :: rest) visited acc =
          bfsLoop w h cells act elt f ((nbrs w h curr).foldl (expandF cells act elt) (visited, rest)).2 ((nbrs w h curr).foldl (expandF cells act elt) (visited, rest)).1 (acc ++ [curr]) := rfl
      rw [hstep]
      have hXv : ∀ i ∈ acc ++ curr :: rest, visB visited i = true :=
        fun i hi => (hiff i).2 (Or.inr hi)
      have hmemsplit : ∀ i, (i ∈ (acc ++ [curr]) ++ ((nbrs w h curr).foldl (expandF cells act elt) (visited, rest)).2) ↔
          i ∈ acc ++ curr :: rest ∨ i ∈ new := by
        intro i
        rw [hEq]
        simp only [List.mem_append, List.mem_cons, List.mem_singleton]
        tauto
      have hnewV0 : ∀ n ∈ new, visB V0 n = false := by
        intro n hn
        have h4 := (hEmem n hn).2.2.2
        rcases Bool.eq_false_or_eq_true (visB V0 n) with ht | hf
        · have hv := (hiff n).2 (Or.inl ht)
          rw [hv] at h4
          simp at h4
        · exact hf
      have h1 : ((nbrs w h curr).foldl (expandF cells act elt) (visited, rest)).1.length = w * h := by rw [hElen, hlen]
      have h2 : ∀ i, visB ((nbrs w h curr).foldl (expandF cells act elt) (visited, rest)).1 i = true ↔
          visB V0 i = true ∨ i ∈ (acc ++ [curr]) ++ ((nbrs w h curr).foldl (expandF cells act elt) (visited, rest)).2 := by
        intro i
        rw [hEiff i, hiff i, hmemsplit i]
        tauto
      have h3 : ((acc ++ [curr]) ++ ((nbrs w h curr).foldl (expandF cells act elt) (visited, rest)).2).Nodup := by
        rw [hEq]
        have hdisj : (acc ++ curr :: rest).Disjoint new := by
          intro a ha hanew
          have hv1 := hXv a ha
          have hv2 := (hEmem a hanew).2.2.2
          rw [hv1] at hv2
          simp at hv2
        have hnd2 : ((acc ++ curr :: rest) ++ new).Nodup := hnd.append hEnd hdisj
        have hsh : (acc ++ [curr]) ++ (rest ++ new) = (acc ++ curr :: rest) ++ new := by
          simp
        rw [hsh]
        exact hnd2
      have h4 : ∀ i ∈ (acc ++ [curr]) ++ ((nbrs w h curr).foldl (expandF cells act elt) (visited, rest)).2, visB V0 i = false := by
        intro i hi
        rcases (hmemsplit i).1 hi with hX | hnew
        · exact hV0 i hX
        · exact hnewV0 i hnew
      have h5 : ∀ i ∈ (acc ++ [curr]) ++ ((nbrs w h curr).foldl (expandF cells act elt) (visited, rest)).2,
          i < w * h ∧ act i = true ∧ elemAt cells i = elt := by
        intro i hi
        rcases (hmemsplit i).1 hi with hX | hnew
        · exact hprops i hX
        · obtain ⟨hn1, hn2, hn3, _⟩ := hEmem i hnew
          exact ⟨nbrs_lt w h curr i hcurr hn1, hn2, hn3⟩
      have h6 : ∀ i ∈ (acc ++ [curr]) ++ ((nbrs w h curr).foldl (expandF cells act elt) (visited, rest)).2,
          Relation.ReflTransGen (adjActive w h cells act elt) start i := by
        intro i hi
        rcases (hmemsplit i).1 hi with hX | hnew
        · exact hreach i hX
        · obtain ⟨hn1, hn2, hn3, _⟩ := hEmem i hnew
          exact (hreach curr hcurrmem).tail ⟨hn1, hcact, hn2, hcelt, hn3⟩
      have h7 : ∀ i ∈ acc ++ [curr], ∀ u ∈ nbrs w h i, act u = true →
          elemAt cells u = elt → visB ((nbrs w h curr).foldl (expandF cells act elt) (visited, rest)).1 u = true := by
        intro i hi u hu hua hue
        rcases List.mem_append.1 hi with hia | hic
        · have hv := hclose i hia u hu hua hue
          exact (hEiff u).2 (Or.inl hv)
        · have hieq : i = curr := by simpa using hic
          subst hieq
          exact hEcl u hu hua hue
      have h8 : 2 * ((nbrs w h curr).foldl (expandF cells act elt) (visited, rest)).1.count false + ((nbrs w h curr).foldl (expandF cells act elt) (visited, rest)).2.length ≤ f := by
        rw [hEq, List.length_append]
        simp only [List.length_cons] at hpot
        omega
      obtain ⟨c1, c2, c3, c4, c5, c6⟩ :=
        ih ((nbrs w h curr).foldl (expandF cells act elt) (visited, rest)).2 ((nbrs w h curr).foldl (expandF cells act elt) (visited, rest)).1 (acc ++ [curr]) V0 h1 h2 h3 h4 h5 h6 h7 h8
      refine ⟨c1, c2, c3, ?_, c5, c6⟩
      intro i hi
      exact c4 i ((hmemsplit i).2 (Or.inl hi))

theorem getD_eq_getElem' (l : List Nat) (t : Nat) (ht : t < l.length) :
    l.getD t 0 = l[t] := by
  rw [List.getD_eq_getElem?_getD, List.getElem?_eq_getElem ht]
  rfl

theorem getD_mem (l : List Nat) (t : Nat) (ht : t < l.length) : l.getD t 0 ∈ l := by
  rw [getD_eq_getElem' l t ht]
  exact List.getElem_mem ht

/-- Any adjActive-path from a cluster member stays in the cluster once the
cluster is closed under adjActive steps, and it can be replayed as a path of
plain 4-adjacency steps inside the cluster. -/
theorem path_in_cluster (w h : Nat) (cells : List Cell) (act : Nat → Bool)
    (elt : Nat) (C : List Nat) (start : Nat) (hstart : start ∈ C)
    (hstep : ∀ x ∈ C, ∀ j, adjActive w h cells act elt x j → j ∈ C) :
    ∀ a, Relation.ReflTransGen (adjActive w h cells act elt) start a →
      a ∈ C ∧ Relation.ReflTransGen
        (fun i j => i ∈ C ∧ j ∈ C ∧ adj4 w h i j) start a := by
  intro a hpath
  induction hpath with
  | refl => exact ⟨hstart, Relation.ReflTransGen.refl⟩
  | tail hab hbc ih =>
    obtain ⟨hbC, hpath2⟩ := ih
    have hcC := hstep _ hbC _ hbc
    exact ⟨hcC, hpath2.tail ⟨hbC, hcC, hbc.1⟩⟩

/-- Paths of in-cluster 4-adjacency steps reverse (4-adjacency is symmetric
on in-range nodes). -/
theorem rtg_symm_in (w h : Nat) (C : List Nat) (hbound : ∀ i ∈ C, i < w * h) :
    ∀ a b, Relation.ReflTransGen (fun i j => i ∈ C ∧ j ∈ C ∧ adj4 w h i j) a b →
      Relation.ReflTransGen (fun i j => i ∈ C ∧ j ∈ C ∧ adj4 w h i j) b a := by
  intro a b hpath
  induction hpath with
  | refl => exact Relation.ReflTransGen.refl
  | tail hab hbc ih =>
    exact Relation.ReflTransGen.head
      ⟨hbc.2.1, hbc.1, nbrs_symm w h _ _ (hbound _ hbc.1) hbc.2.2⟩ ih

/-- Absorption: a chain-adjacent run of active same-element cells through a
cluster member is wholly contained in the cluster, provided the cluster is
closed under qualifying neighbour steps. -/
theorem run_subset_cluster (w h : Nat) (cells : List Cell) (C R : List Nat)
    (s : Nat) (hsR : s ∈ R) (hsC : s ∈ C)
    (hchain : ∀ t, t + 1 < R.length → R.getD (t + 1) 0 ∈ nbrs w h (R.getD t 0) ∧
      R.getD t 0 ∈ nbrs w h (R.getD (t + 1) 0))
    (hRact : ∀ j ∈ R, activeB w h cells j = true)
    (hRelt : ∀ j ∈ R, elemAt cells j = elemAt cells s)
    (hCstep : ∀ x ∈ C, ∀ u ∈ nbrs w h x, activeB w h cells u = true →
      elemAt cells u = elemAt cells x → u ∈ C)
    (hCelt : ∀ x ∈ C, elemAt cells x = elemAt cells s) :
    ∀ j ∈ R, j ∈ C := by
  obtain ⟨ts, hts_lt, hts⟩ := List.mem_iff_getElem.1 hsR
  have htsD : R.getD ts 0 = s := by
    rw [getD_eq_getElem' R ts hts_lt]
    exact hts
  have hstep_up : ∀ x u, x ∈ C → u ∈ nbrs w h x → u ∈ R → u ∈ C := by
    intro x u hx hu hur
    exact hCstep x hx u hu (hRact u hur) (by rw [hRelt u hur, hCelt x hx])
  have fwd : ∀ d, ts + d < R.length → R.getD (ts + d) 0 ∈ C := by
    intro d
    induction d with
    | zero =>
      intro _
      simp only [Nat.add_zero, htsD]
      exact hsC
    | succ d ihd =>
      intro hlt
      have hlt2 : ts + d + 1 < R.length := by omega
      have hx := ihd (by omega)
      have hch := (hchain (ts + d) hlt2).1
      have hur : R.getD (ts + d + 1) 0 ∈ R := getD_mem R _ hlt2
      have hres := hstep_up _ _ hx hch hur
      have he : ts + (d + 1) = ts + d + 1 := by omega
      rw [he]
      exact hres
  have bwd : ∀ d, d ≤ ts → R.getD (ts - d) 0 ∈ C := by
    intro d
    induction d with
    | zero =>
      intro _
      simp only [Nat.sub_zero, htsD]
      exact hsC
    | succ d ihd =>
      intro hd
      have hx := ihd (by omega)
      have he : ts - d = (ts - (d + 1)) + 1 := by omega
      have hlt2 : (ts - (d + 1)) + 1 < R.length := by omega
      have hch := (hchain (ts - (d + 1)) hlt2).2
      rw [he] at hx
      have hur : R.getD (ts - (d + 1)) 0 ∈ R := getD_mem R _ (by omega)
      exact hstep_up _ _ hx hch hur
  intro j hj
  obtain ⟨n, hn, hjn⟩ := List.mem_iff_getElem.1 hj
  have hjD : R.getD n 0 = j := by
    rw [getD_eq_getElem' R n hn]
    exact hjn
  rcases Nat.le_total ts n with hle | hle
  · have hfj := fwd (n - ts) (by omega)
    have he : ts + (n - ts) = n := by omega
    rw [he, hjD] at hfj
    exact hfj
  · have hfj := bwd (ts - n) (by omega)
    have he : ts - (ts - n) = n := by omega
    rw [he, hjD] at hfj
    exact hfj

theorem three_le_of_subset (R C : List Nat) (hnd : R.Nodup) (hlen : 3 ≤ R.length)
    (hsub : ∀ j ∈ R, j ∈ C) : 3 ≤ C.length := by
  have h1 : R.toFinset.card = R.length := List.toFinset_card_of_nodup hnd
  have h2 : R.toFinset ⊆ C.toFinset := by
    intro a ha
    rw [List.mem_toFinset] at ha ⊢
    exact hsub a ha
  have h3 := Finset.card_le_card h2
  have h4 : C.toFinset.card ≤ C.length := C.toFinset_card_le
  omega

/-- Invariant of the outer cluster loop: starting from a closed visited set
and sound accumulated results, every reported match is a well-formed cluster
(at least 3 distinct in-range cells sharing a non-empty element, 4-connected). -/
theorem clustersLoop_good (w h : Nat) (cells : List Cell) (hasH hasV : Nat → Bool) :
    ∀ (starts : List Nat) (visited : List Bool) (results : List MatchResult),
      visited.length = w * h →
      closedVis w h cells visited →
      (∀ m ∈ results, clusterOk w h cells m) →
      (∀ s ∈ starts, activeB w h cells s = true) →
      ∀ m ∈ clustersLoop w h cells (activeB w h cells) hasH hasV starts visited results,
        clusterOk w h cells m := by
  intro starts
  induction starts with
  | nil =>
    intro visited results hlen hcv hres hst m hm
    exact hres m hm
  | cons s rest ih =>
    intro visited results hlen hcv hres hst m hm
    by_cases hv : visited.getD s false = true
    · have hstep : clustersLoop w h cells (activeB w h cells) hasH hasV
          (s :: rest) visited results =
          clustersLoop w h cells (activeB w h cells) hasH hasV rest visited results := by
        simp only [clustersLoop]
        rw [if_pos hv]
      rw [hstep] at hm
      exact ih visited results hlen hcv hres
        (fun t htm => hst t (List.mem_cons_of_mem s htm)) m hm
    · have hvf : visB visited s = false := by
        rcases Bool.eq_false_or_eq_true (visB visited s) with ht | hf
        · exact absurd ht hv
        · exact hf
      have hsact : activeB w h cells s = true := hst s (List.mem_cons_self s rest)
      have hs_lt : s < w * h := activeB_lt w h cells s hsact
      obtain ⟨c1, c2, c3, c4, c5, c6⟩ :=
        bfsLoop_main w h cells (activeB w h cells) (elemAt cells s) s
          (2 * (w * h) + 1) [s] (visited.set s true) [] visited
          (by rw [List.length_set, hlen])
          (by
            intro i
            rw [visB_set_iff visited s i (by rw [hlen]; exact hs_lt)]
            simp)
          (by simp)
          (by
            intro i hi
            have hieq : i = s := by simpa using hi
            subst hieq
            exact hvf)
          (by
            intro i hi
            have hieq : i = s := by simpa using hi
            subst hieq
            exact ⟨hs_lt, hsact, rfl⟩)
          (by
            intro i hi
            have hieq : i = s := by simpa using hi
            subst hieq
            exact Relation.ReflTransGen.refl)
          (by intro i hi; cases hi)
          (by
            have hc : (visited.set s true).count false ≤ (visited.set s true).length :=
              List.count_le_length false (visited.set s true)
            rw [List.length_set, hlen] at hc
            simp only [List.length_cons, List.length_nil]
            omega)
      have hsC : s ∈ (bfsLoop w h cells (activeB w h cells) (elemAt cells s) (2 * (w * h) + 1) [s] (visited.set s true) []).1 := c4 s (by simp)
      have hCstep : ∀ x ∈ (bfsLoop w h cells (activeB w h cells) (elemAt cells s) (2 * (w * h) + 1) [s] (visited.set s true) []).1, ∀ u ∈ nbrs w h x, activeB w h cells u = true →
          elemAt cells u = elemAt cells x → u ∈ (bfsLoop w h cells (activeB w h cells) (elemAt cells s) (2 * (w * h) + 1) [s] (visited.set s true) []).1 := by
        intro x hx u hu hua hue
        have hvu : visB (bfsLoop w h cells (activeB w h cells) (elemAt cells s) (2 * (w * h) + 1) [s] (visited.set s true) []).2 u = true :=
          c6 x hx u hu hua (by rw [hue, (c5 x hx).2.2.2.1])
        rcases (c2 u).1 hvu with hV0u | hinC
        · exfalso
          obtain ⟨hau, hclu⟩ := hcv u hV0u
          have hxnb : x ∈ nbrs w h u := nbrs_symm w h x u (c5 x hx).2.1 hu
          have hxact : activeB w h cells x = true := (c5 x hx).2.2.1
          have hxelt : elemAt cells x = elemAt cells u := by rw [hue]
          have hxV0 : visB visited x = true := hclu x hxnb hxact hxelt
          rw [(c5 x hx).1] at hxV0
          simp at hxV0
        · exact hinC
      have hok : clusterOk w h cells (mkMatchResult w cells hasH hasV s (bfsLoop w h cells (activeB w h cells) (elemAt cells s) (2 * (w * h) + 1) [s] (visited.set s true) []).1) := by
        obtain ⟨R, hsR, hRlen, hRnd, hRprops, hRchain⟩ := active_mem_run w h cells s hsact
        have hsub : ∀ j ∈ R, j ∈ (bfsLoop w h cells (activeB w h cells) (elemAt cells s) (2 * (w * h) + 1) [s] (visited.set s true) []).1 :=
          run_subset_cluster w h cells (bfsLoop w h cells (activeB w h cells) (elemAt cells s) (2 * (w * h) + 1) [s] (visited.set s true) []).1 R s hsR hsC
            hRchain
            (fun j hj => (hRprops j hj).2.2.1)
            (fun j hj => (hRprops j hj).2.1)
            hCstep
            (fun x hx => (c5 x hx).2.2.2.1)
        have hm'cells : (mkMatchResult w cells hasH hasV s (bfsLoop w h cells (activeB w h cells) (elemAt cells s) (2 * (w * h) + 1) [s] (visited.set s true) []).1).cells = (bfsLoop w h cells (activeB w h cells) (elemAt cells s) (2 * (w * h) + 1) [s] (visited.set s true) []).1 := rfl
        have hm'elt : (mkMatchResult w cells hasH hasV s (bfsLoop w h cells (activeB w h cells) (elemAt cells s) (2 * (w * h) + 1) [s] (visited.set s true) []).1).element =
          elemAt cells s := rfl
        refine ⟨?_, ?_, ?_, ?_, ?_⟩
        · rw [hm'cells]
          exact three_le_of_subset R (bfsLoop w h cells (activeB w h cells) (elemAt cells s) (2 * (w * h) + 1) [s] (visited.set s true) []).1 hRnd hRlen hsub
        · rw [hm'cells]
          exact c3
        · rw [hm'elt]
          exact (hRprops s hsR).2.2.2
        · intro i hi
          rw [hm'cells] at hi
          rw [hm'elt]
          exact ⟨(c5 i hi).2.1, (c5 i hi).2.2.2.1⟩
        · rw [hm'cells]
          intro a ha b hb
          have hstepAdj : ∀ x ∈ (bfsLoop w h cells (activeB w h cells) (elemAt cells s) (2 * (w * h) + 1) [s] (visited.set s true) []).1, ∀ j,
              adjActive w h cells (activeB w h cells) (elemAt cells s) x j →
              j ∈ (bfsLoop w h cells (activeB w h cells) (elemAt cells s) (2 * (w * h) + 1) [s] (visited.set s true) []).1 := by
            intro x hx j hadj
            exact hCstep x hx j hadj.1 hadj.2.2.1
              (by rw [hadj.2.2.2.2, (c5 x hx).2.2.2.1])
          have hpa := path_in_cluster w h cells (activeB w h cells) (elemAt cells s)
            (bfsLoop w h cells (activeB w h cells) (elemAt cells s) (2 * (w * h) + 1) [s] (visited.set s true) []).1 s hsC hstepAdj a (c5 a ha).2.2.2.2
          have hpb := path_in_cluster w h cells (activeB w h cells) (elemAt cells s)
            (bfsLoop w h cells (activeB w h cells) (elemAt cells s) (2 * (w * h) + 1) [s] (visited.set s true) []).1 s hsC hstepAdj b (c5 b hb).2.2.2.2
          have hbound : ∀ i ∈ (bfsLoop w h cells (activeB w h cells) (elemAt cells s) (2 * (w * h) + 1) [s] (visited.set s true) []).1, i < w * h := fun i hi => (c5 i hi).2.1
          have hrev := rtg_symm_in w h (bfsLoop w h cells (activeB w h cells) (elemAt cells s) (2 * (w * h) + 1) [s] (visited.set s true) []).1 hbound s a hpa.2
          exact hrev.trans hpb.2
      have hcv2 : closedVis w h cells (bfsLoop w h cells (activeB w h cells) (elemAt cells s) (2 * (w * h) + 1) [s] (visited.set s true) []).2 := by
        intro v hvv
        rcases (c2 v).1 hvv with hold | hinC
        · obtain ⟨hav, hclv⟩ := hcv v hold
          refine ⟨hav, ?_⟩
          intro u hu hau heu
          exact (c2 u).2 (Or.inl (hclv u hu hau heu))
        · refine ⟨(c5 v hinC).2.2.1, ?_⟩
          intro u hu hau heu
          have hui : u ∈ (bfsLoop w h cells (activeB w h cells) (elemAt cells s) (2 * (w * h) + 1) [s] (visited.set s true) []).1 := hCstep v hinC u hu hau heu
          exact (c2 u).2 (Or.inr hui)
      have hstep : clustersLoop w h cells (activeB w h cells) hasH hasV
          (s :: rest) visited results =
          clustersLoop w h cells (activeB w h cells) hasH hasV rest (bfsLoop w h cells (activeB w h cells) (elemAt cells s) (2 * (w * h) + 1) [s] (visited.set s true) []).2
            (results ++ [mkMatchResult w cells hasH hasV s (bfsLoop w h cells (activeB w h cells) (elemAt cells s) (2 * (w * h) + 1) [s] (visited.set s true) []).1]) := by
        simp only [clustersLoop]
        rw [if_neg hv]
      rw [hstep] at hm
      refine ih (bfsLoop w h cells (activeB w h cells) (elemAt cells s) (2 * (w * h) + 1) [s] (visited.set s true) []).2 (results ++ [mkMatchResult w cells hasH hasV s (bfsLoop w h cells (activeB w h cells) (elemAt cells s) (2 * (w * h) + 1) [s] (visited.set s true) []).1])
        c1 hcv2 ?_ (fun t htm => hst t (List.mem_cons_of_mem s htm)) m hm
      intro m2 hm2
      rcases List.mem_append.1 hm2 with hold | hnew
      · exact hres m2 hold
      · have hmeq : m2 = mkMatchResult w cells hasH hasV s (bfsLoop w h cells (activeB w h cells) (elemAt cells s) (2 * (w * h) + 1) [s] (visited.set s true) []).1 := by simpa using hnew
        subst hmeq
        exact hok

/-- Counterexample to C8's "non-blocker" qualifier: on a 3x3 board whose top
row is three blocker (Stone, 10) cells, `find_all_matches` reports that run as
a match — the scan excludes only the empty element (0), not the blocker. -/
theorem claim_C8_cex :
    findAllMatches 3 3 stones3.cells =
      [⟨MatchPattern.line3, 10, [0, 1, 2], 1⟩] := by decide

/-- C8 (amended: the blocker exclusion dropped): every `MatchResult` returned
by `find_all_matches` has at least 3 distinct in-range cells, all holding the
same non-empty element of the board, and its cells list is connected under
4-directional adjacency. -/
theorem claim_C8_matches (w h : Nat) (cells : List Cell) (m : MatchResult)
    (hm : m ∈ findAllMatches w h cells) :
    3 ≤ m.cells.length ∧ m.cells.Nodup ∧ m.element ≠ 0 ∧
      (∀ i ∈ m.cells, i < w * h ∧ elemAt cells i = m.element) ∧
      AdjConnected w h m.cells := by
  unfold findAllMatches findAllMatchesWith at hm
  dsimp only at hm
  by_cases hemp : ((hMatches w h cells).isEmpty && (vMatches w h cells).isEmpty) = true
  · rw [if_pos hemp] at hm
    simp at hm
  · rw [if_neg hemp] at hm
    exact clustersLoop_good w h cells
      (fun i => (hMatches w h cells).any fun r => r.contains i)
      (fun i => (vMatches w h cells).any fun r => r.contains i)
      ((List.range (w * h)).filter (activeB w h cells))
      (List.replicate (w * h) false) []
      (by simp)
      (by
        intro v hv
        rw [visB_replicate] at hv
        simp at hv)
      (by intro m2 hm2; simp at hm2)
      (by
        intro t ht
        exact (List.mem_filter.1 ht).2)
      m hm

/-- Witness for C8 on a concrete board: the single horizontal Water run of
`line3x3` is reported and carries exactly the guaranteed shape. -/
theorem claim_C8_matches_w :
    3 ≤ (⟨MatchPattern.line3, 1, [0, 1, 2], 1⟩ : MatchResult).cells.length ∧
    (⟨MatchPattern.line3, 1, [0, 1, 2], 1⟩ : MatchResult).cells.Nodup ∧
    (⟨MatchPattern.line3, 1, [0, 1, 2], 1⟩ : MatchResult).element ≠ 0 ∧
    (∀ i ∈ (⟨MatchPattern.line3, 1, [0, 1, 2], 1⟩ : MatchResult).cells,
      i < 3 * 3 ∧ elemAt line3x3.cells i =
        (⟨MatchPattern.line3, 1, [0, 1, 2], 1⟩ : MatchResult).element) ∧
    AdjConnected 3 3 (⟨MatchPattern.line3, 1, [0, 1, 2], 1⟩ : MatchResult).cells :=
  claim_C8_matches 3 3 line3x3.cells ⟨MatchPattern.line3, 1, [0, 1, 2], 1⟩ (by decide)

end LivingInk
